import Mathlib

/-!
Verification of the typed expression system and import/export validation layer
of the hail client library, against its natural-language specification.

The repository sources in view are `python/hail/methods/impex.py` (import and
export wrappers with their precondition checks) and the expression-system test
suite `python/hail/tests/test_expr.py`.  The expression/type-system
implementation itself (types, parser, printers, operators, aggregators,
builders) is not among the sources, only its tests; those parts are modelled
from the specification text, as marked on each definition.
-/

namespace Hail

/-! ## Numeric promotion (spec section 3: promotion lattice) -/

/-- Modelled from the spec: the four numeric scalar types, ordered by the
promotion lattice int32 < int64 < float32 < float64.  The implementation
(hail.expr types/operators) is not under the sources in view. -/
inductive NumTy where
  | i32
  | i64
  | f32
  | f64
deriving DecidableEq, Repr, Fintype

/-- Modelled from the spec: position of a numeric type in the promotion chain. -/
def NumTy.rank : NumTy → Nat
  | .i32 => 0
  | .i64 => 1
  | .f32 => 2
  | .f64 => 3

/-- Modelled from the spec: the lattice ordering on numeric types. -/
def NumTy.le (a b : NumTy) : Prop := a.rank ≤ b.rank

instance : DecidablePred fun p : NumTy × NumTy => p.1.le p.2 := by
  intro p
  unfold NumTy.le
  infer_instance

instance (a b : NumTy) : Decidable (a.le b) := by
  unfold NumTy.le
  infer_instance

/-- Modelled from the spec: the join (least upper bound) of two numeric types,
the result type of binary arithmetic unless the operator forces a result. -/
def NumTy.join (a b : NumTy) : NumTy := if a.rank ≤ b.rank then b else a

/-- Modelled from the spec: result element type of true division, which
"always widens to at least float32". -/
def divType (a b : NumTy) : NumTy := (a.join b).join .f32

/-- Modelled from the spec: result element type of floor division, which
"preserves the operand join type". -/
def floorDivType (a b : NumTy) : NumTy := a.join b

/-- Modelled from the spec: result element type of exponentiation, which
"always yields float64 regardless of operand types". -/
def powType (_a _b : NumTy) : NumTy := .f64

/-- Modelled from the spec: result element type of the plain arithmetic
operators (addition, subtraction, multiplication, modulus): the operand join. -/
def arithType (a b : NumTy) : NumTy := a.join b

/-- Modelled from the spec: an operand of scalar binary arithmetic is either a
numeric scalar or an array of numeric scalars (elementwise broadcover). -/
inductive NumOperand where
  | num (t : NumTy)
  | arrNum (t : NumTy)
deriving DecidableEq, Repr

/-- Modelled from the spec: elementwise broadcast of a scalar result-type rule
over array operands, as exercised by the arithmetic tests (array op scalar,
scalar op array, array op array). -/
def broadcast (f : NumTy → NumTy → NumTy) : NumOperand → NumOperand → NumOperand
  | .num a, .num b => .num (f a b)
  | .arrNum a, .num b => .arrNum (f a b)
  | .num a, .arrNum b => .arrNum (f a b)
  | .arrNum a, .arrNum b => .arrNum (f a b)

/-! ## Switch builder semantics (spec section 4.4) -/

/-- Modelled from the spec: scan the declared switch branches in order and
return the result of the first branch whose key equals the scrutinee under
strict, non-missing equality (missing never equals missing); `none` means no
branch matched. -/
def scanBranches {K R : Type} [DecidableEq K] :
    Option K → List (Option K × Option R) → Option (Option R)
  | _, [] => none
  | v, (k, r) :: bs =>
    match v, k with
    | some a, some b => if a = b then some r else scanBranches (some a) bs
    | _, _ => scanBranches v bs

/-- Modelled from the spec's section 4.4 branch scan, with the
missing-evaluatee fallback taken from the program: the in-source test
(tests/test_expr.py, test_switch, lines 153-159) pins
`switch(missing).when(5,0).when(6,1).when(0,2).when(missing,3).default(4)`
to missing, so a missing evaluatee with no `when_missing` branch yields
missing regardless of the `default`/`or_missing` terminal (missingness
propagates, as in spec section 3).  `v` is the evaluatee, `bs` the branches
in declaration order, `wm` the `when_missing` branch when declared, and `fb`
the terminal fallback (`some d` for `default(d)`, `none` for
`or_missing()`).  A missing evaluatee with a declared `when_missing` branch
takes that branch in preference to scanning the others. -/
def switchEval {K R : Type} [DecidableEq K] (v : Option K)
    (bs : List (Option K × Option R)) (wm : Option (Option R)) (fb : Option R) :
    Option R :=
  match v, wm with
  | none, some r => r
  | none, none => none
  | some a, _ => (scanBranches (some a) bs).getD fb

/-! ## Aggregators any / all (spec section 4.3) -/

/-- Modelled from the spec: the `any` aggregator over a sequence of
boolean-or-missing values; true exactly when some element is the value True
(missing and False elements contribute nothing). -/
def aggAny (xs : List (Option Bool)) : Bool := xs.any (fun x => x == some true)

/-- Modelled from the spec: the `all` aggregator over a sequence of
boolean-or-missing values; true exactly when no element is the value False
(vacuously true on empty or all-missing input). -/
def aggAll (xs : List (Option Bool)) : Bool := xs.all (fun x => x != some false)

/-! ## Struct select (spec section 4.2) -/

/-- Modelled from the spec: first value bound to a field name in an ordered
struct, `none` when the field does not exist. -/
def lookupField {α : Type} : List (String × α) → String → Option α
  | [], _ => none
  | (n, v) :: fs, p => if n = p then some v else lookupField fs p

/-- Modelled from the spec: `select(fields..., named...)` on a struct value.
Returns the positional fields in the order given, with their values taken from
the source struct, followed by the keyword-defined fields in the order given;
fails (returns `none`) when a positional field name does not exist on the
source struct. -/
def selectStruct {α : Type} (s : List (String × α)) (pos : List String)
    (named : List (String × α)) : Option (List (String × α)) :=
  match pos with
  | [] => some named
  | p :: ps =>
    match lookupField s p, selectStruct s ps named with
    | some v, some rest => some ((p, v) :: rest)
    | _, _ => none

/-! ## The algebraic type system (spec section 3) -/

/-- Modelled from the spec: reference genomes available to `locus`; the two
registered builds exercised by the sources. -/
inductive RG where
  | grch37
  | grch38
deriving DecidableEq, Repr

/-- Modelled from the spec: canonical name of a reference genome. -/
def RG.name : RG → List Char
  | .grch37 => "GRCh37".toList
  | .grch38 => "GRCh38".toList

mutual

/-- Modelled from the spec: the closed algebraic set of types
`int32 | int64 | float32 | float64 | str | bool | call | locus(rg) |
interval(point) | array(elem) | set(elem) | dict(key,val) | struct(fields) |
tuple(types)`.  Struct field names are arbitrary character sequences.
Lean's structural equality on this inductive is exactly the spec's structural
type equality (field-order-sensitive for struct/tuple). -/
inductive HType where
  | tint32
  | tint64
  | tfloat32
  | tfloat64
  | tstr
  | tbool
  | tcall
  | tlocus (rg : RG)
  | tinterval (point : HType)
  | tarray (elem : HType)
  | tset (elem : HType)
  | tdict (key : HType) (val : HType)
  | tstruct (fields : HFields)
  | ttuple (elems : HTypes)

/-- Modelled from the spec: the ordered field-name-to-type map of a struct. -/
inductive HFields where
  | nil
  | cons (name : List Char) (ty : HType) (rest : HFields)

/-- Modelled from the spec: the ordered type list of a tuple. -/
inductive HTypes where
  | nil
  | cons (ty : HType) (rest : HTypes)

end

deriving instance DecidableEq for HType
deriving instance DecidableEq for HFields
deriving instance DecidableEq for HTypes

/-! ## Canonical and pretty printing of types (spec section 4.1) -/

/-- Backtick character, the field-name quote of the type grammar. -/
def bqChar : Char := Char.ofNat 96

/-- Backslash character, the escape of the type grammar. -/
def bsChar : Char := Char.ofNat 92

/-- Left-brace character of the struct grammar. -/
def lbChar : Char := Char.ofNat 123

/-- Right-brace character of the struct grammar. -/
def rbChar : Char := Char.ofNat 125

/-- Whitespace characters the type parser skips between tokens. -/
def isWSChar (c : Char) : Bool := c == ' ' || c == '\n' || c == '\t'

/-- Characters allowed in a bare (unquoted) identifier of the type grammar. -/
def identChar (c : Char) : Bool := c.isAlphanum || c == '_'

/-- Field names printable without quoting. -/
def isSafeName (s : List Char) : Bool := !s.isEmpty && s.all identChar

/-- Modelled from the spec: escaping of quoted field names; backticks and
backslashes are escaped with a backslash, all other characters (quotes,
unicode, whitespace) are written literally. -/
def escapeName : List Char → List Char
  | [] => []
  | c :: cs =>
    if c = bqChar ∨ c = bsChar then bsChar :: c :: escapeName cs
    else c :: escapeName cs

/-- Lexical tokens of the type grammar. -/
inductive Tok where
  | ident (s : List Char)
  | quoted (s : List Char)
  | lt
  | gt
  | lbrace
  | rbrace
  | lparen
  | rparen
  | comma
  | colon
deriving DecidableEq, Repr

/-- Characters of one token. -/
def renderTok : Tok → List Char
  | .ident s => s
  | .quoted s => bqChar :: (escapeName s ++ [bqChar])
  | .lt => ['<']
  | .gt => ['>']
  | .lbrace => [lbChar]
  | .rbrace => [rbChar]
  | .lparen => ['(']
  | .rparen => [')']
  | .comma => [',']
  | .colon => [':']

/-- Modelled from the spec: a field name is printed bare when safe and
backtick-quoted otherwise, so that any field name round-trips. -/
def nameTok (s : List Char) : Tok :=
  if isSafeName s then .ident s else .quoted s

mutual

/-- Modelled from the spec: token stream of the canonical form of a type
(`array<int32>`, `dict<str, int32>`, `struct` with braced `name: type` fields,
`tuple(...)`, `locus<GRCh37>`). -/
def HType.toks : HType → List Tok
  | .tint32 => [.ident "int32".toList]
  | .tint64 => [.ident "int64".toList]
  | .tfloat32 => [.ident "float32".toList]
  | .tfloat64 => [.ident "float64".toList]
  | .tstr => [.ident "str".toList]
  | .tbool => [.ident "bool".toList]
  | .tcall => [.ident "call".toList]
  | .tlocus rg => [.ident "locus".toList, .lt, .ident rg.name, .gt]
  | .tinterval e => .ident "interval".toList :: .lt :: (e.toks ++ [.gt])
  | .tarray e => .ident "array".toList :: .lt :: (e.toks ++ [.gt])
  | .tset e => .ident "set".toList :: .lt :: (e.toks ++ [.gt])
  | .tdict k v => .ident "dict".toList :: .lt :: (k.toks ++ .comma :: (v.toks ++ [.gt]))
  | .tstruct fs => .ident "struct".toList :: .lbrace :: (fs.toks ++ [.rbrace])
  | .ttuple ts => .ident "tuple".toList :: .lparen :: (ts.toks ++ [.rparen])

/-- Token stream of a comma-separated struct field list. -/
def HFields.toks : HFields → List Tok
  | .nil => []
  | .cons nm t .nil => nameTok nm :: .colon :: t.toks
  | .cons nm t (.cons nm2 t2 fs) =>
    nameTok nm :: .colon :: (t.toks ++ .comma :: HFields.toks (.cons nm2 t2 fs))

/-- Token stream of a comma-separated tuple element list. -/
def HTypes.toks : HTypes → List Tok
  | .nil => []
  | .cons t .nil => t.toks
  | .cons t (.cons t2 ts) => t.toks ++ .comma :: HTypes.toks (.cons t2 ts)

end

/-- Characters of a token stream with no separation (the canonical form). -/
def flatRender : List Tok → List Char
  | [] => []
  | t :: ts => renderTok t ++ flatRender ts

/-- Modelled from the spec: `to_canonical_string`, the canonical single-line
string form of a type. -/
def strT (t : HType) : String := ⟨flatRender t.toks⟩

/-- Run of `n` spaces. -/
def spacesN : Nat → List Char
  | 0 => []
  | n + 1 => ' ' :: spacesN n

/-- Modelled from the spec: greedy line-filling pretty layout of a token
stream.  `indent` is the indentation of continuation lines and `width` the
line width past which a break is inserted; `col` tracks the current column. -/
def prettyGo (indent width : Nat) : Nat → List Tok → List Char
  | _, [] => []
  | col, t :: ts =>
    if col != 0 && decide (width < col + (renderTok t).length) then
      '\n' :: (spacesN indent ++ (renderTok t ++ prettyGo indent width (indent + (renderTok t).length) ts))
    else renderTok t ++ prettyGo indent width (col + (renderTok t).length) ts

/-- Modelled from the spec: `to_pretty(Type, indent, width)`, the multi-line
rendering of a type at a given indent and width. -/
def prettyT (t : HType) (indent width : Nat) : String :=
  ⟨prettyGo indent width 0 t.toks⟩

/-! ## Lexing and parsing of type strings (spec section 4.1) -/

/-- Single-character tokens of the type grammar. -/
def punctTok (c : Char) : Option Tok :=
  if c == '<' then some .lt
  else if c == '>' then some .gt
  else if c == lbChar then some .lbrace
  else if c == rbChar then some .rbrace
  else if c == '(' then some .lparen
  else if c == ')' then some .rparen
  else if c == ',' then some .comma
  else if c == ':' then some .colon
  else none

/-- Drop leading whitespace. -/
def skipWS : List Char → List Char
  | [] => []
  | c :: cs => if isWSChar c then skipWS cs else c :: cs

/-- Read the body of a backtick-quoted field name after the opening quote,
undoing the escaping; returns the name and the characters after the closing
quote. -/
def readQuoted : List Char → Option (List Char × List Char)
  | [] => none
  | c :: cs =>
    if c = bqChar then some ([], cs)
    else if c = bsChar then
      match cs with
      | [] => none
      | d :: ds =>
        match readQuoted ds with
        | some (s, r) => some (d :: s, r)
        | none => none
    else
      match readQuoted cs with
      | some (s, r) => some (c :: s, r)
      | none => none

/-- Fueled lexer of the type grammar: skips whitespace, reads punctuation,
quoted names and maximal identifier runs.  Fails on any other character. -/
def tokenizeGo : Nat → List Char → Option (List Tok)
  | 0, l =>
    match skipWS l with
    | [] => some []
    | _ :: _ => none
  | f + 1, l =>
    match skipWS l with
    | [] => some []
    | c :: cs =>
      match punctTok c with
      | some t => (tokenizeGo f cs).map (t :: ·)
      | none =>
        if c = bqChar then
          match readQuoted cs with
          | some (s, r) => (tokenizeGo f r).map (Tok.quoted s :: ·)
          | none => none
        else if identChar c then
          (tokenizeGo f (cs.dropWhile identChar)).map
            (Tok.ident (c :: cs.takeWhile identChar) :: ·)
        else none

/-- Lexer of the type grammar (the fuel is an upper bound on the token
count). -/
def tokenize (l : List Char) : Option (List Tok) := tokenizeGo (l.length + 1) l

/-- Keywords of the type grammar. -/
inductive Kw where
  | kint32
  | kint64
  | kfloat32
  | kfloat64
  | kstr
  | kbool
  | kcall
  | klocus
  | kinterval
  | karray
  | kset
  | kdict
  | kstruct
  | ktuple
deriving DecidableEq, Repr

/-- Keyword classification of an identifier. -/
def kwOf (s : List Char) : Option Kw :=
  if s = "int32".toList then some .kint32
  else if s = "int64".toList then some .kint64
  else if s = "float32".toList then some .kfloat32
  else if s = "float64".toList then some .kfloat64
  else if s = "str".toList then some .kstr
  else if s = "bool".toList then some .kbool
  else if s = "call".toList then some .kcall
  else if s = "locus".toList then some .klocus
  else if s = "interval".toList then some .kinterval
  else if s = "array".toList then some .karray
  else if s = "set".toList then some .kset
  else if s = "dict".toList then some .kdict
  else if s = "struct".toList then some .kstruct
  else if s = "tuple".toList then some .ktuple
  else none

/-- Reference-genome name recognition. -/
def rgOf (s : List Char) : Option RG :=
  if s = "GRCh37".toList then some .grch37
  else if s = "GRCh38".toList then some .grch38
  else none

/-- Field-name token (bare identifier or quoted). -/
def parseName : List Tok → Option (List Char × List Tok)
  | .ident s :: ts => some (s, ts)
  | .quoted s :: ts => some (s, ts)
  | _ => none

mutual

/-- Modelled from the spec: recursive-descent parse of one type from a token
stream, returning the type and the remaining tokens.  The fuel bounds the
recursion depth. -/
def parseTy : Nat → List Tok → Option (HType × List Tok)
  | 0, _ => none
  | f + 1, Tok.ident n :: ts =>
    match kwOf n with
    | some .kint32 => some (.tint32, ts)
    | some .kint64 => some (.tint64, ts)
    | some .kfloat32 => some (.tfloat32, ts)
    | some .kfloat64 => some (.tfloat64, ts)
    | some .kstr => some (.tstr, ts)
    | some .kbool => some (.tbool, ts)
    | some .kcall => some (.tcall, ts)
    | some .klocus =>
      match ts with
      | .lt :: .ident g :: .gt :: ts2 =>
        match rgOf g with
        | some rg => some (.tlocus rg, ts2)
        | none => none
      | _ => none
    | some .kinterval =>
      match ts with
      | .lt :: ts2 =>
        match parseTy f ts2 with
        | some (e, .gt :: ts3) => some (.tinterval e, ts3)
        | _ => none
      | _ => none
    | some .karray =>
      match ts with
      | .lt :: ts2 =>
        match parseTy f ts2 with
        | some (e, .gt :: ts3) => some (.tarray e, ts3)
        | _ => none
      | _ => none
    | some .kset =>
      match ts with
      | .lt :: ts2 =>
        match parseTy f ts2 with
        | some (e, .gt :: ts3) => some (.tset e, ts3)
        | _ => none
      | _ => none
    | some .kdict =>
      match ts with
      | .lt :: ts2 =>
        match parseTy f ts2 with
        | some (k, .comma :: ts3) =>
          match parseTy f ts3 with
          | some (v, .gt :: ts4) => some (.tdict k v, ts4)
          | _ => none
        | _ => none
      | _ => none
    | some .kstruct =>
      match ts with
      | .lbrace :: ts2 =>
        match parseFields f ts2 with
        | some (fs, ts3) => some (.tstruct fs, ts3)
        | none => none
      | _ => none
    | some .ktuple =>
      match ts with
      | .lparen :: ts2 =>
        match parseTys f ts2 with
        | some (es, ts3) => some (.ttuple es, ts3)
        | none => none
      | _ => none
    | none => none
  | _ + 1, _ => none

/-- Parse a possibly empty struct field list up to and including the closing
brace. -/
def parseFields : Nat → List Tok → Option (HFields × List Tok)
  | 0, _ => none
  | f + 1, ts =>
    match ts with
    | .rbrace :: r => some (.nil, r)
    | _ => parseFields1 f ts

/-- Parse a nonempty struct field list up to and including the closing
brace. -/
def parseFields1 : Nat → List Tok → Option (HFields × List Tok)
  | 0, _ => none
  | f + 1, ts =>
    match parseName ts with
    | some (nm, .colon :: ts2) =>
      match parseTy f ts2 with
      | some (t, .comma :: ts3) =>
        match parseFields1 f ts3 with
        | some (fs, r) => some (.cons nm t fs, r)
        | none => none
      | some (t, .rbrace :: ts3) => some (.cons nm t .nil, ts3)
      | _ => none
    | _ => none

/-- Parse a possibly empty tuple element list up to and including the closing
parenthesis. -/
def parseTys : Nat → List Tok → Option (HTypes × List Tok)
  | 0, _ => none
  | f + 1, ts =>
    match ts with
    | .rparen :: r => some (.nil, r)
    | _ => parseTys1 f ts

/-- Parse a nonempty tuple element list up to and including the closing
parenthesis. -/
def parseTys1 : Nat → List Tok → Option (HTypes × List Tok)
  | 0, _ => none
  | f + 1, ts =>
    match parseTy f ts with
    | some (t, .comma :: ts2) =>
      match parseTys1 f ts2 with
      | some (es, r) => some (.cons t es, r)
      | none => none
    | some (t, .rparen :: ts2) => some (.cons t .nil, ts2)
    | _ => none

end

/-- Modelled from the spec: `parse(text) -> Type` (`dtype`): lex the text,
parse exactly one type and require the whole input to be consumed; `none`
models a `ParseError`. -/
def dtype (s : String) : Option HType :=
  match tokenize s.toList with
  | some tks =>
    match parseTy (2 * tks.length + 1) tks with
    | some (t, []) => some t
    | _ => none
  | none => none

/-- Whether a token is a bare identifier. -/
def isIdentTok : Tok → Bool
  | .ident _ => true
  | _ => false

/-- Well-formedness of one token: identifier tokens are nonempty runs of
identifier characters. -/
def goodTok : Tok → Prop
  | .ident s => s ≠ [] ∧ ∀ c ∈ s, identChar c = true
  | _ => True

/-- No two adjacent identifier tokens (adjacent identifiers would fuse when
rendered without separation; the type printers never produce them). -/
def noII : List Tok → Prop
  | [] => True
  | [_] => True
  | a :: b :: ts => (isIdentTok a = true → isIdentTok b = false) ∧ noII (b :: ts)

/-- Well-formed printable token stream. -/
def goodToks (ts : List Tok) : Prop := (∀ t ∈ ts, goodTok t) ∧ noII ts

/-- The character list does not begin with an identifier character. -/
def headNotIdent : List Char → Prop
  | [] => True
  | c :: _ => identChar c = false

mutual

/-- Parser fuel sufficient for a type's token stream. -/
def HType.need : HType → Nat
  | .tinterval e => e.need + 1
  | .tarray e => e.need + 1
  | .tset e => e.need + 1
  | .tdict k v => k.need + v.need + 1
  | .tstruct fs => fs.need + 2
  | .ttuple ts => ts.need + 2
  | _ => 1

/-- Parser fuel sufficient for a struct field list's token stream. -/
def HFields.need : HFields → Nat
  | .nil => 1
  | .cons _ t fs => t.need + fs.need + 2

/-- Parser fuel sufficient for a tuple element list's token stream. -/
def HTypes.need : HTypes → Nat
  | .nil => 1
  | .cons t ts => t.need + ts.need + 2

end

/-! ## Import/export validation layer (python/hail/methods/impex.py) -/

/-- Error taxonomy of the validation layer (spec section 7): fatal errors,
value errors and type errors raised before delegating to the engine. -/
inductive HailErr where
  | fatal (msg : String)
  | valueErr (msg : String)
  | typeErr (msg : String)
deriving DecidableEq, Repr

/-- Index kind of a matrix-table field. -/
inductive FieldKind where
  | global
  | row
  | col
  | entry
deriving DecidableEq, Repr

/-- Schema of a matrix table as seen by the export validators: its named
fields with their types and index kinds.  Field names are unique in a hail
dataset; lookup returns the first binding. -/
structure MatrixSchema where
  fields : List (String × HType × FieldKind)

/-- Field access `dataset[name]` giving the field type and its indices;
`none` models the `KeyError` for an absent field. -/
def MatrixSchema.lookup (ds : MatrixSchema) (n : String) : Option (HType × FieldKind) :=
  match ds.fields.find? (fun f => f.1 == n) with
  | some f => some f.2
  | none => none

/-- The fatal-error message of `export_gen` (quote characters written as
escapes). -/
def exportGenMsg : String :=
  "export_gen: no entry field \x27GP\x27 of type \x27array<float64>\x27"

/-- Delegated engine call `ExportGen.apply(dataset, output, precision)`. -/
structure GenEngineCall where
  output : String
  precision : Int
deriving DecidableEq, Repr

/-- Translated from `export_gen` (impex.py lines 83-93): look up field `GP`;
unless it exists with type `array<float64>` and entry indices, raise
`FatalError`; otherwise delegate to the engine.  The `require_biallelic`
normalization (methods/misc.py, not among the sources) and the engine call
itself lie behind the boundary; per the spec the validation contract of
`export_gen` is exactly the `GP` check. -/
def export_gen (ds : MatrixSchema) (output : String) (precision : Int) :
    Except HailErr GenEngineCall :=
  match ds.lookup "GP" with
  | some (ty, kind) =>
    if ty = HType.tarray HType.tfloat64 ∧ kind = FieldKind.entry then
      Except.ok ⟨output, precision⟩
    else Except.error (.fatal exportGenMsg)
  | none => Except.error (.fatal exportGenMsg)

/-- Translated from `export_plink` (impex.py lines 163-164): the recognized
`fam_args` names with their required expression types. -/
def famDict : List (String × HType) :=
  [("fam_id", .tstr), ("id", .tstr), ("mat_id", .tstr), ("pat_id", .tstr),
   ("is_female", .tbool), ("is_case", .tbool), ("quant_pheno", .tfloat64)]

/-- The valid-name list as rendered into the unrecognized-argument message
(`', '.join(fam_dict)`). -/
def famNamesMsg : String :=
  "fam_id, id, mat_id, pat_id, is_female, is_case, quant_pheno"

/-- Message for both `is_case` and `quant_pheno` supplied (quote characters
written as escapes). -/
def famBothMsg : String :=
  "At most one of \x27is_case\x27 and \x27quant_pheno\x27 may be given as fam_args. Found both."

/-- Message for an unrecognized `fam_args` name: it names the valid set. -/
def famUnrecognizedMsg (k : String) : String :=
  "fam_arg \x27" ++ k ++ "\x27 not recognized. Valid names: " ++ famNamesMsg

/-- Message for a recognized `fam_args` name of the wrong expression type. -/
def famTypeMsg (k : String) (found expected : HType) : String :=
  "fam_arg \x27" ++ k ++ "\x27 expression has type " ++ strT found ++
    ", expected type " ++ strT expected

/-- Whether a named argument is supplied. -/
def hasArg (args : List (String × HType)) (n : String) : Bool :=
  args.any (fun a => a.1 == n)

/-- Translated from the `export_plink` argument loop (impex.py lines
170-174): scan the named arguments in order; an unrecognized name raises
`ValueError` naming the valid set, a recognized name whose expression type
differs from its required type raises `TypeError`. -/
def checkFamArgs : List (String × HType) → Option HailErr
  | [] => none
  | (k, ty) :: rest =>
    match lookupField famDict k with
    | none => some (.valueErr (famUnrecognizedMsg k))
    | some req =>
      if ty ≠ req then some (.typeErr (famTypeMsg k ty req))
      else checkFamArgs rest

/-- Delegated engine call `ExportPlink.apply(dataset, output, fam exprs)`. -/
structure PlinkEngineCall where
  output : String
  famArgs : List (String × HType)
deriving DecidableEq

/-- Translated from `export_plink` (impex.py lines 163-181): raise
`ValueError` when both `is_case` and `quant_pheno` are supplied, then
validate each named argument in order; only when validation passes is the
engine call made.  Each argument is modelled by its name and expression
type.  The expression analysis/join machinery behind `analyze` and
`_process_joins` is outside the sources in view. -/
def export_plink (output : String) (args : List (String × HType)) :
    Except HailErr PlinkEngineCall :=
  if hasArg args "is_case" ∧ hasArg args "quant_pheno" then
    Except.error (.valueErr famBothMsg)
  else
    match checkFamArgs args with
    | some e => Except.error e
    | none => Except.ok ⟨output, args⟩

/-- Translated from `import_bgen` (impex.py lines 672-674): the valid entry
field options. -/
def validBgenFields : List String := ["GT", "GP", "dosage"]

/-- The options line appended to both fatal messages of `import_bgen` (quote
characters written as escapes). -/
def bgenOptionsMsg : String :=
  "\n    Options: \x27GT\x27, \x27GP\x27, \x27dosage\x27."

/-- Message for empty `entry_fields`. -/
def bgenEmptyMsg : String :=
  "import_bgen: entry_fields must be non-empty." ++ bgenOptionsMsg

/-- The plural helper of utils.misc as used here: `value`/`values`. -/
def pluralValue (n : Nat) : String := if n = 1 then "value" else "values"

/-- Rendering of the invalid entry-field list in the fatal message (python
prints the list of offending values). -/
def renderBadFields (bad : List String) : String :=
  "[" ++ String.intercalate ", " (bad.map (fun f => "\x27" ++ f ++ "\x27")) ++ "]"

/-- Message for invalid entry-field values: it lists the offending values and
the valid options. -/
def bgenInvalidMsg (bad : List String) : String :=
  "import_bgen: found invalid " ++ pluralValue bad.length ++ " " ++
    renderBadFields bad ++ " in entry_fields." ++ bgenOptionsMsg

/-- Delegated engine call `importBgens(paths, ..., includeGT, includeGP,
includeDosage, ...)`. -/
structure BgenEngineCall where
  path : List String
  includeGT : Bool
  includeGP : Bool
  includeDosage : Bool
deriving DecidableEq, Repr

/-- Translated from `import_bgen` (impex.py lines 694-714): raise
`FatalError` when `entry_fields` is empty; raise `FatalError` listing the
offending values and the valid options when any entry field is outside
GT/GP/dosage; otherwise delegate to the engine with the three membership
flags.  Python's `list(set(entry_fields) - valid)` is modelled as the
duplicate-free list of invalid fields in first-occurrence order (python's
set iteration order is unspecified; only the set content is meaningful). -/
def import_bgen (path : List String) (entryFields : List String) :
    Except HailErr BgenEngineCall :=
  if entryFields = [] then Except.error (.fatal bgenEmptyMsg)
  else
    let bad := entryFields.dedup.filter (fun f => !validBgenFields.contains f)
    if bad = [] then
      Except.ok ⟨path, entryFields.contains "GT", entryFields.contains "GP",
        entryFields.contains "dosage"⟩
    else Except.error (.fatal (bgenInvalidMsg bad))

/-! ## argmin / argmax (spec section 4.3) -/

/-- Modelled from the spec: minimum of a sequence, `none` on empty input. -/
def listMin : List Int → Option Int
  | [] => none
  | x :: xs =>
    match listMin xs with
    | none => some x
    | some m => some (min x m)

/-- Modelled from the spec: maximum of a sequence, `none` on empty input. -/
def listMax : List Int → Option Int
  | [] => none
  | x :: xs =>
    match listMax xs with
    | none => some x
    | some m => some (max x m)

/-- First index at which a value occurs. -/
def firstIdx (v : Int) : List Int → Option Nat
  | [] => none
  | x :: xs => if x = v then some 0 else (firstIdx v xs).map (· + 1)

/-- Modelled from the spec: `argmin(seq, unique)`: the (first) index of the
minimum element; missing on empty input; with `unique = true`, missing
whenever the minimum is attained at more than one index.  Always returns a
value (the missing sentinel `none`), never an error. -/
def argmin (unique : Bool) (xs : List Int) : Option Nat :=
  match listMin xs with
  | none => none
  | some m =>
    if unique ∧ xs.count m ≠ 1 then none else firstIdx m xs

/-- Modelled from the spec: `argmax(seq, unique)`, dually. -/
def argmax (unique : Bool) (xs : List Int) : Option Nat :=
  match listMax xs with
  | none => none
  | some m =>
    if unique ∧ xs.count m ≠ 1 then none else firstIdx m xs

end Hail

namespace Hail

/-! ## Theorems -/

/-- Claim C2: for binary arithmetic over numeric operand types, the result type
follows the promotion lattice int32 < int64 < float32 < float64 (plain
operators yield the join, which is the least upper bound in the chain), with
operator-specific overrides: true division of two int32 operands (including an
int32 array divided by an int32 scalar) yields float32 elements, floor
division of two int32 operands yields int32 (the operand join is preserved for
every operand pair), and exponentiation yields float64 for every pair of
numeric operand types. -/
theorem C2_numeric_promotion :
    (NumTy.le .i32 .i64 ∧ NumTy.le .i64 .f32 ∧ NumTy.le .f32 .f64 ∧
      ¬ NumTy.le .i64 .i32 ∧ ¬ NumTy.le .f32 .i64 ∧ ¬ NumTy.le .f64 .f32) ∧
    (∀ a b c : NumTy, NumTy.le (a.join b) c ↔ (NumTy.le a c ∧ NumTy.le b c)) ∧
    (∀ a b : NumTy, arithType a b = a.join b) ∧
    divType .i32 .i32 = .f32 ∧
    broadcast divType (.arrNum .i32) (.num .i32) = .arrNum .f32 ∧
    (∀ a b : NumTy, floorDivType a b = a.join b) ∧
    broadcast floorDivType (.arrNum .i32) (.num .i32) = .arrNum .i32 ∧
    (∀ a b : NumTy, powType a b = .f64) ∧
    broadcast powType (.arrNum .i32) (.num .i32) = .arrNum .f64 := by
  refine ⟨by decide, by decide, ?_, by decide, by decide, ?_, by decide, ?_, by decide⟩
  · intro a b
    rfl
  · intro a b
    rfl
  · intro a b
    rfl

/-- Branch scan: a missing evaluatee matches no branch, including branches
whose key is itself missing. -/
theorem scanBranches_none {K R : Type} [DecidableEq K]
    (bs : List (Option K × Option R)) :
    scanBranches (R := R) (none : Option K) bs = none := by
  induction bs with
  | nil => rfl
  | cons b bs ih =>
    obtain ⟨k, r⟩ := b
    cases k <;> simpa [scanBranches] using ih

/-- Branch scan: branches are tried in declaration order under strict
non-missing equality. -/
theorem scanBranches_cons {K R : Type} [DecidableEq K] (a : K) (k : Option K)
    (r : Option R) (bs : List (Option K × Option R)) :
    scanBranches (some a) ((k, r) :: bs) =
      if k = some a then some r else scanBranches (some a) bs := by
  cases k with
  | none => simp [scanBranches]
  | some b =>
    by_cases h : b = a
    · subst h
      simp [scanBranches]
    · simp [scanBranches, h, Ne.symm h]

/-- Claim C3 counterexample: the claim (and the spec's own example) has a
missing evaluatee falling through to the default, so that
`switch(missing).when(5,0).when(6,1).when(0,2).when(missing,3).default(4)`
returns 4; the program (test_switch, tests/test_expr.py lines 153-159)
evaluates exactly that expression to missing, and so does the faithful
model. -/
theorem C3_switch_counterexample :
    switchEval (none : Option Int)
      [(some 5, some 0), (some 6, some 1), (some 0, some 2), (none, some 3)]
      none (some 4) ≠ some 4 := by decide

/-- Claim C3 (amended): switch branches are scanned in declaration order and
the first branch whose key equals the evaluatee under strict non-missing
equality is taken; a missing evaluatee never equals any key, including a
missing key (so a `when(missing, r)` branch is never taken); when the
evaluatee is missing and a `when_missing` branch is declared, that branch is
taken in preference to scanning the others; but — correcting the claim's
fall-through — with no `when_missing` branch a missing evaluatee yields
missing regardless of the `default`/`or_missing` terminal: the spec's
concrete example `switch(missing_int).when(5,0).when(6,1).when(0,2)
.when(missing_int,3).default(4)` yields missing (None, per the cited test),
and -1 once `when_missing(-1)` is declared. -/
theorem C3_switch_semantics :
    (∀ (bs : List (Option Int × Option Int)), scanBranches none bs = none) ∧
    (∀ (a : Int) (k : Option Int) (r : Option Int)
        (bs : List (Option Int × Option Int)),
      scanBranches (some a) ((k, r) :: bs) =
        if k = some a then some r else scanBranches (some a) bs) ∧
    (∀ (bs : List (Option Int × Option Int)) (fb : Option Int) (r : Option Int),
      switchEval none bs (some r) fb = r) ∧
    (∀ (bs : List (Option Int × Option Int)) (fb : Option Int),
      switchEval none bs none fb = none) ∧
    (∀ (a : Int) (bs : List (Option Int × Option Int)) (fb : Option Int),
      switchEval (some a) bs none fb = (scanBranches (some a) bs).getD fb) ∧
    switchEval (none : Option Int)
      [(some 5, some 0), (some 6, some 1), (some 0, some 2), (none, some 3)]
      none (some 4) = none ∧
    switchEval (none : Option Int)
      [(some 5, some 0), (some 6, some 1), (some 0, some 2), (none, some 3)]
      (some (some (-1))) (some 4) = some (-1) := by
  refine ⟨fun bs => scanBranches_none bs, fun a k r bs => scanBranches_cons a k r bs,
    ?_, ?_, ?_, by decide, by decide⟩
  · intro bs fb r
    rfl
  · intro bs fb
    rfl
  · intro a bs fb
    rfl

/-- Claim C4: the aggregators any and all over boolean-or-missing sequences
satisfy three-valued semantics: any over a sequence whose elements are all
missing or False is False (in particular on all-missing and on empty input);
all over a sequence whose elements are all missing or True is True (in
particular on all-missing and on empty input); a single True element makes any
True and a single False element makes all False, regardless of the missing
elements. -/
theorem C4_any_all_aggregators (xs ys zs ws : List (Option Bool))
    (hx : ∀ x ∈ xs, x = none ∨ x = some false)
    (hy : ∀ y ∈ ys, y = none ∨ y = some true)
    (hz : some true ∈ zs) (hw : some false ∈ ws) :
    aggAny xs = false ∧ aggAll ys = true ∧
    aggAny zs = true ∧ aggAll ws = false ∧
    aggAny [] = false ∧ aggAll [] = true := by
  refine ⟨?_, ?_, ?_, ?_, rfl, rfl⟩
  · simp only [aggAny, List.any_eq_false]
    intro x hxx
    rcases hx x hxx with h | h <;> simp [h]
  · simp only [aggAll, List.all_eq_true]
    intro y hyy
    rcases hy y hyy with h | h <;> simp [h]
  · simp only [aggAny, List.any_eq_true]
    exact ⟨some true, hz, by simp⟩
  · exact List.all_eq_false.mpr ⟨some false, hw, by simp⟩

/-- Witness for C4 at concrete sequences. -/
theorem C4_any_all_aggregators_witness :
    aggAny [none, some false] = false ∧ aggAll [none, some true] = true ∧
    aggAny [none, some true] = true ∧ aggAll [some false, none] = false ∧
    aggAny [] = false ∧ aggAll [] = true :=
  C4_any_all_aggregators [none, some false] [none, some true]
    [none, some true] [some false, none]
    (by decide) (by decide) (by decide) (by decide)

/-- Select fails as soon as a positional field is absent from the source. -/
theorem selectStruct_missing {α : Type} (s : List (String × α))
    (pos : List String) (named : List (String × α)) (p : String)
    (hp : p ∈ pos) (habs : lookupField s p = none) :
    selectStruct s pos named = none := by
  induction pos with
  | nil => cases hp
  | cons q qs ih =>
    rcases List.mem_cons.mp hp with rfl | hmem
    · simp [selectStruct, habs]
    · cases hq : lookupField s q <;> simp [selectStruct, hq, ih hmem]

/-- Claim C5: for every struct value, `select(p1, ..., pn, named...)` returns
a struct whose fields are exactly the positional fields in the order given
(values taken from the source struct) followed by the keyword-defined fields
in the order given, and fails when a positional field name does not exist on
the source struct; in particular
`struct(f1=1,f2=2,f3=3).select(f2, f1, f4=5)` has ordered fields
f2, f1, f4 with values 2, 1, 5. -/
theorem C5_struct_select {α : Type} (d : α) (s : List (String × α))
    (pos : List String) (named : List (String × α))
    (hall : ∀ p ∈ pos, (lookupField s p).isSome) :
    selectStruct s pos named =
      some ((pos.map fun p => (p, (lookupField s p).getD d)) ++ named) ∧
    (∀ (s₂ : List (String × α)) (pos₂ : List String)
        (named₂ : List (String × α)) (p : String), p ∈ pos₂ →
      lookupField s₂ p = none → selectStruct s₂ pos₂ named₂ = none) ∧
    selectStruct [("f1", (1 : Int)), ("f2", 2), ("f3", 3)] ["f2", "f1"]
      [("f4", 5)] = some [("f2", 2), ("f1", 1), ("f4", 5)] := by
  refine ⟨?_, fun s₂ pos₂ named₂ p => selectStruct_missing s₂ pos₂ named₂ p, by decide⟩
  induction pos with
  | nil => rfl
  | cons q qs ih =>
    have hq := hall q (by simp)
    obtain ⟨v, hv⟩ := Option.isSome_iff_exists.mp hq
    have hrest := ih (fun p hp => hall p (List.mem_cons_of_mem q hp))
    simp [selectStruct, hv, hrest]

/-- Witness for C5 at the concrete struct of the specification example. -/
theorem C5_struct_select_witness :
    selectStruct [("f1", (1 : Int)), ("f2", 2), ("f3", 3)] ["f2", "f1"]
      [("f4", 5)] = some [("f2", 2), ("f1", 1), ("f4", 5)] :=
  (C5_struct_select 0 [("f1", (1 : Int)), ("f2", 2), ("f3", 3)] ["f2", "f1"]
    [("f4", 5)] (by decide)).2.2

/-- The sequence minimum is `none` exactly on the empty sequence. -/
theorem listMin_eq_none_iff (xs : List Int) : listMin xs = none ↔ xs = [] := by
  cases xs with
  | nil => simp [listMin]
  | cons x xs =>
    simp only [listMin]
    cases listMin xs <;> simp

/-- The sequence maximum is `none` exactly on the empty sequence. -/
theorem listMax_eq_none_iff (xs : List Int) : listMax xs = none ↔ xs = [] := by
  cases xs with
  | nil => simp [listMax]
  | cons x xs =>
    simp only [listMax]
    cases listMax xs <;> simp

/-- The sequence minimum is a member of the sequence. -/
theorem listMin_mem {xs : List Int} {m : Int} (h : listMin xs = some m) :
    m ∈ xs := by
  induction xs generalizing m with
  | nil => simp [listMin] at h
  | cons x xs ih =>
    simp only [listMin] at h
    cases hx : listMin xs with
    | none =>
      rw [hx] at h
      simp at h
      simp [h]
    | some m' =>
      rw [hx] at h
      simp at h
      rcases min_cases x m' with ⟨he, _⟩ | ⟨he, _⟩ <;> rw [he] at h
      · simp [h]
      · subst h
        exact List.mem_cons_of_mem x (ih hx)

/-- The sequence minimum is a lower bound. -/
theorem listMin_le {xs : List Int} {m : Int} (h : listMin xs = some m) :
    ∀ x ∈ xs, m ≤ x := by
  induction xs generalizing m with
  | nil => simp [listMin] at h
  | cons x xs ih =>
    simp only [listMin] at h
    intro y hy
    cases hx : listMin xs with
    | none =>
      rw [hx] at h
      have hnil := (listMin_eq_none_iff xs).mp hx
      subst hnil
      simp at h hy
      omega
    | some m' =>
      rw [hx] at h
      simp at h
      rcases List.mem_cons.mp hy with rfl | hy2
      · subst h
        exact min_le_left _ _
      · subst h
        exact le_trans (min_le_right _ _) (ih hx y hy2)

/-- The sequence maximum is a member of the sequence. -/
theorem listMax_mem {xs : List Int} {m : Int} (h : listMax xs = some m) :
    m ∈ xs := by
  induction xs generalizing m with
  | nil => simp [listMax] at h
  | cons x xs ih =>
    simp only [listMax] at h
    cases hx : listMax xs with
    | none =>
      rw [hx] at h
      simp at h
      simp [h]
    | some m' =>
      rw [hx] at h
      simp at h
      rcases max_cases x m' with ⟨he, _⟩ | ⟨he, _⟩ <;> rw [he] at h
      · simp [h]
      · subst h
        exact List.mem_cons_of_mem x (ih hx)

/-- The sequence maximum is an upper bound. -/
theorem le_listMax {xs : List Int} {m : Int} (h : listMax xs = some m) :
    ∀ x ∈ xs, x ≤ m := by
  induction xs generalizing m with
  | nil => simp [listMax] at h
  | cons x xs ih =>
    simp only [listMax] at h
    intro y hy
    cases hx : listMax xs with
    | none =>
      rw [hx] at h
      have hnil := (listMax_eq_none_iff xs).mp hx
      subst hnil
      simp at h hy
      omega
    | some m' =>
      rw [hx] at h
      simp at h
      rcases List.mem_cons.mp hy with rfl | hy2
      · subst h
        exact le_max_left _ _
      · subst h
        exact le_trans (ih hx y hy2) (le_max_right _ _)

/-- A present value has a first index, and the element there is that value. -/
theorem firstIdx_spec {v : Int} {xs : List Int} (h : v ∈ xs) :
    ∃ i, firstIdx v xs = some i ∧
      ∃ hi : i < xs.length, xs.get ⟨i, hi⟩ = v := by
  induction xs with
  | nil => cases h
  | cons x xs ih =>
    by_cases hx : x = v
    · exact ⟨0, by simp [firstIdx, hx], by simp, by simp [hx]⟩
    · have hv : v ∈ xs := by
        rcases List.mem_cons.mp h with rfl | h2
        · exact absurd rfl hx
        · exact h2
      obtain ⟨i, hfi, hi, hget⟩ := ih hv
      refine ⟨i + 1, by simp [firstIdx, hx, hfi], by simpa using hi, by simpa using hget⟩

/-- Claim C8: argmin and argmax return an index of the minimum / maximum
element of the sequence; with unique = true they return missing whenever the
extremum is attained at more than one index (and agree with the non-unique
form when it is attained exactly once); on an empty sequence they return the
missing sentinel rather than raising.  The index returned is a position of
the extremum that bounds every element of the sequence, as exercised by the
test sequence 2,1,1,4,4,3. -/
theorem C8_argmin_argmax (u : Bool) (xs : List Int) (hne : xs ≠ []) :
    argmin u [] = none ∧ argmax u [] = none ∧
    (∃ i, argmin false xs = some i ∧
      ∃ hi : i < xs.length, ∀ j : Fin xs.length, xs.get ⟨i, hi⟩ ≤ xs.get j) ∧
    (∃ i, argmax false xs = some i ∧
      ∃ hi : i < xs.length, ∀ j : Fin xs.length, xs.get j ≤ xs.get ⟨i, hi⟩) ∧
    (∀ m, listMin xs = some m → 1 < xs.count m → argmin true xs = none) ∧
    (∀ m, listMax xs = some m → 1 < xs.count m → argmax true xs = none) ∧
    (∀ m, listMin xs = some m → xs.count m = 1 → argmin true xs = argmin false xs) ∧
    (∀ m, listMax xs = some m → xs.count m = 1 → argmax true xs = argmax false xs) ∧
    argmax false [2, 1, 1, 4, 4, 3] = some 3 ∧
    argmin false [2, 1, 1, 4, 4, 3] = some 1 ∧
    argmax true [2, 1, 1, 4, 4, 3] = none ∧
    argmin true [2, 1, 1, 4, 4, 3] = none := by
  refine ⟨by cases u <;> rfl, by cases u <;> rfl, ?_, ?_, ?_, ?_, ?_, ?_,
    by decide, by decide, by decide, by decide⟩
  · obtain ⟨m, hm⟩ := Option.ne_none_iff_exists'.mp
      (fun h0 => hne ((listMin_eq_none_iff xs).mp h0))
    obtain ⟨i, hfi, hi, hget⟩ := firstIdx_spec (listMin_mem hm)
    refine ⟨i, by simp [argmin, hm, hfi], hi, fun j => ?_⟩
    rw [hget]
    exact listMin_le hm _ (xs.get_mem j j.isLt)
  · obtain ⟨m, hm⟩ := Option.ne_none_iff_exists'.mp
      (fun h0 => hne ((listMax_eq_none_iff xs).mp h0))
    obtain ⟨i, hfi, hi, hget⟩ := firstIdx_spec (listMax_mem hm)
    refine ⟨i, by simp [argmax, hm, hfi], hi, fun j => ?_⟩
    rw [hget]
    exact le_listMax hm _ (xs.get_mem j j.isLt)
  · intro m hm hc
    simp [argmin, hm]
    omega
  · intro m hm hc
    simp [argmax, hm]
    omega
  · intro m hm hc
    simp [argmin, hm, hc]
  · intro m hm hc
    simp [argmax, hm, hc]

/-- Claim C6: export_gen raises a FatalError whose message names the missing
GP entry field of type array<float64> whenever the dataset has no entry field
GP of that type (the field absent, of another type, or not entry-indexed),
and the error is raised instead of delegating to the engine (the result
carries no engine call, so nothing is written); when the field is present
with the required type and indices no such error is raised and the call
delegates. -/
theorem C6_export_gen (ds : MatrixSchema) (output : String) (precision : Int)
    (hbad : ∀ ty kind, ds.lookup "GP" = some (ty, kind) →
      ¬(ty = HType.tarray HType.tfloat64 ∧ kind = FieldKind.entry)) :
    export_gen ds output precision = Except.error (.fatal exportGenMsg) ∧
    exportGenMsg =
      "export_gen: no entry field \x27GP\x27 of type \x27array<float64>\x27" ∧
    (∀ ds₂ : MatrixSchema,
      ds₂.lookup "GP" = some (HType.tarray HType.tfloat64, FieldKind.entry) →
      export_gen ds₂ output precision = Except.ok ⟨output, precision⟩) := by
  refine ⟨?_, rfl, ?_⟩
  · unfold export_gen
    cases hl : ds.lookup "GP" with
    | none => rfl
    | some p =>
      obtain ⟨ty, kind⟩ := p
      have := hbad ty kind hl
      simp [this]
  · intro ds₂ hl
    unfold export_gen
    rw [hl]
    simp

/-- Witness for C6: a dataset whose GP entry field has element type float32,
and one with the required GP field. -/
theorem C6_export_gen_witness :
    export_gen ⟨[("GP", HType.tarray HType.tfloat32, FieldKind.entry)]⟩ "o" 4 =
      Except.error (.fatal exportGenMsg) ∧
    export_gen ⟨[("GP", HType.tarray HType.tfloat64, FieldKind.entry)]⟩ "o" 4 =
      Except.ok ⟨"o", 4⟩ := by
  have h := C6_export_gen ⟨[("GP", HType.tarray HType.tfloat32, FieldKind.entry)]⟩
    "o" 4 (by
      intro ty kind hl
      have h2 : (HType.tarray HType.tfloat32, FieldKind.entry) = (ty, kind) := by
        simpa [MatrixSchema.lookup] using hl
      cases h2
      decide)
  exact ⟨h.1, h.2.2 ⟨[("GP", HType.tarray HType.tfloat64, FieldKind.entry)]⟩ rfl⟩

/-- Claim C7: export_plink validates its fam_args before any engine call:
both is_case and quant_pheno supplied raises a ValueError; an unrecognized
keyword name raises a ValueError whose message names the valid set; a
recognized name of the wrong expression type raises a TypeError (the required
types being tstr for the four ID fields, tbool for is_female and is_case,
tfloat64 for quant_pheno); the result in every error case is the error itself
(no engine call), and validation passing yields the engine call. -/
theorem C7_export_plink_fam_args (output : String)
    (args rest : List (String × HType)) (k : String) (ty req : HType) :
    (lookupField famDict "fam_id" = some .tstr ∧
      lookupField famDict "id" = some .tstr ∧
      lookupField famDict "mat_id" = some .tstr ∧
      lookupField famDict "pat_id" = some .tstr ∧
      lookupField famDict "is_female" = some .tbool ∧
      lookupField famDict "is_case" = some .tbool ∧
      lookupField famDict "quant_pheno" = some .tfloat64) ∧
    (hasArg args "is_case" = true → hasArg args "quant_pheno" = true →
      export_plink output args = Except.error (.valueErr famBothMsg)) ∧
    (lookupField famDict k = none →
      checkFamArgs ((k, ty) :: rest) = some (.valueErr (famUnrecognizedMsg k))) ∧
    famUnrecognizedMsg k =
      "fam_arg \x27" ++ k ++ "\x27 not recognized. Valid names: " ++
        "fam_id, id, mat_id, pat_id, is_female, is_case, quant_pheno" ∧
    (lookupField famDict k = some req → ty ≠ req →
      checkFamArgs ((k, ty) :: rest) = some (.typeErr (famTypeMsg k ty req))) ∧
    (∀ e, checkFamArgs args = some e →
      ¬(hasArg args "is_case" = true ∧ hasArg args "quant_pheno" = true) →
      export_plink output args = Except.error e) ∧
    (¬(hasArg args "is_case" = true ∧ hasArg args "quant_pheno" = true) →
      checkFamArgs args = none →
      export_plink output args = Except.ok ⟨output, args⟩) := by
  refine ⟨by decide, ?_, ?_, rfl, ?_, ?_, ?_⟩
  · intro h1 h2
    simp [export_plink, h1, h2]
  · intro hnone
    simp [checkFamArgs, hnone]
  · intro hreq hne
    simp [checkFamArgs, hreq, hne]
  · intro e he hboth
    simp [export_plink, hboth, he]
  · intro hboth hnone
    simp [export_plink, hboth, hnone]

/-- Witness for C7 at concrete argument lists. -/
theorem C7_export_plink_fam_args_witness :
    export_plink "o" [("is_case", .tbool), ("quant_pheno", .tfloat64)] =
      Except.error (.valueErr famBothMsg) ∧
    checkFamArgs [("bad", .tstr)] = some (.valueErr (famUnrecognizedMsg "bad")) ∧
    checkFamArgs [("is_female", .tstr)] =
      some (.typeErr (famTypeMsg "is_female" .tstr .tbool)) ∧
    export_plink "o" [("id", .tstr)] = Except.ok ⟨"o", [("id", .tstr)]⟩ := by
  refine ⟨?_, ?_, ?_, ?_⟩
  · exact (C7_export_plink_fam_args "o"
      [("is_case", .tbool), ("quant_pheno", .tfloat64)] [] "k" .tstr .tstr).2.1
      (by decide) (by decide)
  · exact (C7_export_plink_fam_args "o" [] [] "bad" .tstr .tstr).2.2.1 (by decide)
  · exact (C7_export_plink_fam_args "o" [] [] "is_female" .tstr .tbool).2.2.2.2.1
      (by decide) (by decide)
  · exact (C7_export_plink_fam_args "o" [("id", .tstr)] [] "k" .tstr
      .tstr).2.2.2.2.2.2 (by decide) (by decide)

/-- Claim C9: import_bgen raises a FatalError listing the valid options when
entry_fields is empty, and a FatalError listing the offending values and the
valid options when entry_fields contains a value outside GT/GP/dosage, in
both cases instead of delegating (the result carries no engine call);
otherwise validation passes and the call delegates with the three membership
flags. -/
theorem C9_import_bgen (path : List String) (entryFields : List String)
    (f : String) :
    import_bgen path [] = Except.error (.fatal bgenEmptyMsg) ∧
    bgenEmptyMsg = "import_bgen: entry_fields must be non-empty." ++
      "\n    Options: \x27GT\x27, \x27GP\x27, \x27dosage\x27." ∧
    (f ∈ entryFields → f ∉ validBgenFields →
      ∃ bad, import_bgen path entryFields = Except.error (.fatal (bgenInvalidMsg bad)) ∧
        f ∈ bad ∧ bad ≠ []) ∧
    (∀ bad, bgenInvalidMsg bad =
      "import_bgen: found invalid " ++ pluralValue bad.length ++ " " ++
        renderBadFields bad ++ " in entry_fields." ++
        "\n    Options: \x27GT\x27, \x27GP\x27, \x27dosage\x27.") ∧
    (entryFields ≠ [] → (∀ g ∈ entryFields, g ∈ validBgenFields) →
      import_bgen path entryFields =
        Except.ok ⟨path, entryFields.contains "GT", entryFields.contains "GP",
          entryFields.contains "dosage"⟩) := by
  refine ⟨rfl, rfl, ?_, fun bad => rfl, ?_⟩
  · intro hmem hbad
    have hne : entryFields ≠ [] := List.ne_nil_of_mem hmem
    have hfbad : f ∈ entryFields.dedup.filter (fun g => !validBgenFields.contains g) := by
      refine List.mem_filter.mpr ⟨List.mem_dedup.mpr hmem, ?_⟩
      simp only [Bool.not_eq_true']
      simpa using hbad
    refine ⟨entryFields.dedup.filter (fun g => !validBgenFields.contains g), ?_,
      hfbad, List.ne_nil_of_mem hfbad⟩
    have hb := List.ne_nil_of_mem hfbad
    simp only [import_bgen, hne, if_false]
    split
    · exact absurd (by assumption) hb
    · rfl
  · intro hne hval
    have hnil : entryFields.dedup.filter (fun g => !validBgenFields.contains g) = [] := by
      refine List.filter_eq_nil_iff.mpr ?_
      intro g hg
      simp only [Bool.not_eq_true', Bool.not_eq_false]
      simpa using hval g (List.mem_dedup.mp hg)
    simp [import_bgen, hne, hnil]
    exact hval

/-- Witness for C9 at concrete entry-field lists. -/
theorem C9_import_bgen_witness :
    import_bgen ["p"] [] = Except.error (.fatal bgenEmptyMsg) ∧
    (∃ bad, import_bgen ["p"] ["GT", "x"] =
      Except.error (.fatal (bgenInvalidMsg bad)) ∧ "x" ∈ bad ∧ bad ≠ []) ∧
    import_bgen ["p"] ["GT", "dosage"] =
      Except.ok ⟨["p"], true, false, true⟩ := by
  refine ⟨(C9_import_bgen ["p"] [] "x").1, ?_, ?_⟩
  · exact (C9_import_bgen ["p"] ["GT", "x"] "x").2.2.1 (by decide) (by decide)
  · exact (C9_import_bgen ["p"] ["GT", "dosage"] "x").2.2.2.2 (by decide) (by decide)

/-- An identifier character is not whitespace. -/
theorem identChar_not_ws {c : Char} (h : identChar c = true) : isWSChar c = false := by
  cases hw : isWSChar c
  · rfl
  · exfalso
    have hc : (c = ' ' ∨ c = '\n') ∨ c = '\t' := by
      simpa [isWSChar] using hw
    rcases hc with (rfl | rfl) | rfl <;> exact absurd h (by decide)

/-- An identifier character is not the quote character. -/
theorem identChar_not_bq {c : Char} (h : identChar c = true) : c ≠ bqChar := by
  rintro rfl
  exact absurd h (by decide)

/-- An identifier character is not punctuation. -/
theorem identChar_punct {c : Char} (h : identChar c = true) : punctTok c = none := by
  have hne : ∀ d : Char, identChar d = false → (c == d) = false := by
    intro d hd
    cases hb : c == d
    · rfl
    · exact absurd ((beq_iff_eq.mp hb) ▸ h) (by simp [hd])
  unfold punctTok
  rw [hne '<' (by decide), hne '>' (by decide), hne lbChar (by decide),
    hne rbChar (by decide), hne '(' (by decide), hne ')' (by decide),
    hne ',' (by decide), hne ':' (by decide)]
  simp

/-- A punctuation character is not whitespace. -/
theorem punct_not_ws {c : Char} {t : Tok} (hp : punctTok c = some t) :
    isWSChar c = false := by
  unfold punctTok at hp
  split_ifs at hp with h1 h2 h3 h4 h5 h6 h7 h8
  · cases beq_iff_eq.mp h1; decide
  · cases beq_iff_eq.mp h2; decide
  · cases beq_iff_eq.mp h3; decide
  · cases beq_iff_eq.mp h4; decide
  · cases beq_iff_eq.mp h5; decide
  · cases beq_iff_eq.mp h6; decide
  · cases beq_iff_eq.mp h7; decide
  · cases beq_iff_eq.mp h8; decide

/-- Leading whitespace is dropped. -/
theorem skipWS_cons_of {c : Char} (cs : List Char) (h : isWSChar c = false) :
    skipWS (c :: cs) = c :: cs := by
  simp [skipWS, h]

/-- Whole whitespace prefixes are dropped. -/
theorem skipWS_app (ws l : List Char) (h : ∀ c ∈ ws, isWSChar c = true) :
    skipWS (ws ++ l) = skipWS l := by
  induction ws with
  | nil => rfl
  | cons c cs ih =>
    have hc := h c (by simp)
    simp only [List.cons_append, skipWS, hc, if_true]
    exact ih (fun d hd => h d (by simp [hd]))

/-- Space runs are whitespace. -/
theorem spacesN_ws (n : Nat) : ∀ c ∈ spacesN n, isWSChar c = true := by
  induction n with
  | zero => intro c hc; cases hc
  | succ n ih =>
    intro c hc
    simp only [spacesN] at hc
    rcases List.mem_cons.mp hc with rfl | hc2
    · decide
    · exact ih c hc2

/-- Reading back a quoted name undoes the escaping. -/
theorem readQuoted_escape (s r : List Char) :
    readQuoted (escapeName s ++ bqChar :: r) = some (s, r) := by
  induction s with
  | nil =>
    show readQuoted (bqChar :: r) = some ([], r)
    rw [readQuoted.eq_def]
    simp
  | cons c cs ih =>
    by_cases hc : c = bqChar ∨ c = bsChar
    · simp only [escapeName, if_pos hc, List.cons_append]
      have hr : readQuoted (bsChar :: c :: (escapeName cs ++ bqChar :: r)) =
          match readQuoted (escapeName cs ++ bqChar :: r) with
          | some (s, r2) => some (c :: s, r2)
          | none => none := rfl
      rw [hr, ih]
    · push_neg at hc
      simp only [escapeName, if_neg (by tauto : ¬(c = bqChar ∨ c = bsChar)),
        List.cons_append]
      rw [readQuoted.eq_def]
      simp [hc.1, hc.2, ih]

/-- An identifier run followed by a non-identifier character splits off
exactly. -/
theorem takeWhile_append_of {s r : List Char} (h1 : ∀ c ∈ s, identChar c = true)
    (h2 : headNotIdent r) :
    (s ++ r).takeWhile identChar = s ∧ (s ++ r).dropWhile identChar = r := by
  induction s with
  | nil =>
    cases r with
    | nil => exact ⟨rfl, rfl⟩
    | cons c cs =>
      have hc : identChar c = false := h2
      simp [List.takeWhile_cons, List.dropWhile_cons, hc]
  | cons c cs ih =>
    have hc := h1 c (by simp)
    have := ih (fun d hd => h1 d (by simp [hd]))
    simp [List.takeWhile_cons, List.dropWhile_cons, hc, this.1, this.2]

/-- Tokens render to nonempty character lists. -/
theorem renderTok_length_pos {t : Tok} (h : goodTok t) : 0 < (renderTok t).length := by
  cases t with
  | ident s =>
    cases s with
    | nil => exact absurd rfl h.1
    | cons c cs => simp [renderTok]
  | quoted s => simp [renderTok]
  | lt => decide
  | gt => decide
  | lbrace => decide
  | rbrace => decide
  | lparen => decide
  | rparen => decide
  | comma => decide
  | colon => decide

/-- A non-identifier token renders to characters starting outside the
identifier class. -/
theorem renderTok_headNotIdent {t : Tok} (h : isIdentTok t = false)
    (l : List Char) : headNotIdent (renderTok t ++ l) := by
  cases t with
  | ident s => simp [isIdentTok] at h
  | quoted s => exact (by decide : identChar bqChar = false)
  | lt => exact (by decide : identChar '<' = false)
  | gt => exact (by decide : identChar '>' = false)
  | lbrace => exact (by decide : identChar lbChar = false)
  | rbrace => exact (by decide : identChar rbChar = false)
  | lparen => exact (by decide : identChar '(' = false)
  | rparen => exact (by decide : identChar ')' = false)
  | comma => exact (by decide : identChar ',' = false)
  | colon => exact (by decide : identChar ':' = false)

/-- The lexer ignores leading whitespace. -/
theorem tokenizeGo_ws (fuel : Nat) (ws l : List Char)
    (h : ∀ c ∈ ws, isWSChar c = true) :
    tokenizeGo fuel (ws ++ l) = tokenizeGo fuel l := by
  cases fuel <;> simp only [tokenizeGo, skipWS_app ws l h]

/-- One lexer step on a punctuation character. -/
theorem tokenizeGo_punct {c : Char} {t : Tok} (hp : punctTok c = some t)
    (rest : List Char) (f : Nat) :
    tokenizeGo (f + 1) (c :: rest) = (tokenizeGo f rest).map (t :: ·) := by
  simp only [tokenizeGo, skipWS_cons_of rest (punct_not_ws hp), hp]

/-- One lexer step on a quoted name. -/
theorem tokenizeGo_bq (X : List Char) (f : Nat) :
    tokenizeGo (f + 1) (bqChar :: X) =
      match readQuoted X with
      | some (s, r) => (tokenizeGo f r).map (Tok.quoted s :: ·)
      | none => none := by
  simp only [tokenizeGo, skipWS_cons_of (c := bqChar) X (by decide),
    show punctTok bqChar = none from by decide]
  simp

/-- One lexer step on an identifier head character. -/
theorem tokenizeGo_identHead (c : Char) (cs : List Char) (f : Nat)
    (hc : identChar c = true) :
    tokenizeGo (f + 1) (c :: cs) =
      (tokenizeGo f (cs.dropWhile identChar)).map
        (Tok.ident (c :: cs.takeWhile identChar) :: ·) := by
  simp only [tokenizeGo, skipWS_cons_of cs (identChar_not_ws hc),
    identChar_punct hc, if_neg (identChar_not_bq hc), hc, if_true]

/-- One lexer step: any whitespace, then one rendered token whose boundary is
respected, produces exactly that token. -/
theorem tokenizeGo_step (ws : List Char) (hws : ∀ c ∈ ws, isWSChar c = true)
    (t : Tok) (rest : List Char) (f : Nat) (hgood : goodTok t)
    (hstart : isIdentTok t = true → headNotIdent rest) :
    tokenizeGo (f + 1) (ws ++ (renderTok t ++ rest)) =
      (tokenizeGo f rest).map (t :: ·) := by
  rw [tokenizeGo_ws _ _ _ hws]
  cases t with
  | ident s =>
    obtain ⟨hne, hall⟩ := hgood
    obtain ⟨c, s2, rfl⟩ : ∃ c s2, s = c :: s2 := by
      cases s with
      | nil => exact absurd rfl hne
      | cons c s2 => exact ⟨c, s2, rfl⟩
    have hc : identChar c = true := hall c (by simp)
    have htk := takeWhile_append_of (s := s2) (r := rest)
      (fun d hd => hall d (by simp [hd])) (hstart rfl)
    rw [show renderTok (Tok.ident (c :: s2)) ++ rest = c :: (s2 ++ rest) from
      by simp [renderTok]]
    rw [tokenizeGo_identHead c (s2 ++ rest) f hc, htk.1, htk.2]
  | quoted s =>
    rw [show renderTok (Tok.quoted s) ++ rest =
      bqChar :: (escapeName s ++ bqChar :: rest) from by simp [renderTok]]
    rw [tokenizeGo_bq, readQuoted_escape]
  | lt => exact tokenizeGo_punct (by decide) rest f
  | gt => exact tokenizeGo_punct (by decide) rest f
  | lbrace => exact tokenizeGo_punct (by decide) rest f
  | rbrace => exact tokenizeGo_punct (by decide) rest f
  | lparen => exact tokenizeGo_punct (by decide) rest f
  | rparen => exact tokenizeGo_punct (by decide) rest f
  | comma => exact tokenizeGo_punct (by decide) rest f
  | colon => exact tokenizeGo_punct (by decide) rest f

/-- The tail of an adjacency-free stream is adjacency-free. -/
theorem noII_tail {a : Tok} {l : List Tok} (h : noII (a :: l)) : noII l := by
  cases l with
  | nil => trivial
  | cons b l2 => exact h.2

/-- The flat rendering of a stream with a non-identifier head starts outside
the identifier class. -/
theorem flatRender_headNotIdent (ts : List Tok)
    (h : ∀ t2 ∈ ts.head?, isIdentTok t2 = false) :
    headNotIdent (flatRender ts) := by
  cases ts with
  | nil => trivial
  | cons t ts2 =>
    have ht := h t rfl
    show headNotIdent (renderTok t ++ flatRender ts2)
    exact renderTok_headNotIdent ht _

/-- The pretty rendering of a stream with a non-identifier head starts
outside the identifier class. -/
theorem prettyGo_headNotIdent (i w col : Nat) (ts : List Tok)
    (h : ∀ t2 ∈ ts.head?, isIdentTok t2 = false) :
    headNotIdent (prettyGo i w col ts) := by
  cases ts with
  | nil => trivial
  | cons t ts2 =>
    have ht := h t rfl
    simp only [prettyGo]
    split
    · exact (by decide : identChar '\n' = false)
    · exact renderTok_headNotIdent ht _

/-- The lexer inverts the flat rendering of a well-formed token stream. -/
theorem tokenize_flat (ts : List Tok) (h : goodToks ts) :
    ∀ f, ts.length < f → tokenizeGo f (flatRender ts) = some ts := by
  induction ts with
  | nil =>
    intro f hf
    obtain ⟨f2, rfl⟩ : ∃ f2, f = f2 + 1 := ⟨f - 1, by omega⟩
    rfl
  | cons t ts ih =>
    intro f hf
    obtain ⟨f2, rfl⟩ : ∃ f2, f = f2 + 1 := ⟨f - 1, by omega⟩
    have hstart : isIdentTok t = true → headNotIdent (flatRender ts) := by
      intro hid
      apply flatRender_headNotIdent
      intro t2 ht2
      cases ts with
      | nil => cases ht2
      | cons b ts2 =>
        cases ht2
        exact h.2.1 hid
    have hstep := tokenizeGo_step [] (by simp) t (flatRender ts) f2
      (h.1 t (by simp)) hstart
    simp only [List.nil_append] at hstep
    show tokenizeGo (f2 + 1) (renderTok t ++ flatRender ts) = some (t :: ts)
    rw [hstep, ih ⟨fun u hu => h.1 u (by simp [hu]), noII_tail h.2⟩ f2
      (by simpa using hf)]
    rfl

/-- The lexer inverts the pretty rendering of a well-formed token stream at
any indent, width and starting column. -/
theorem tokenize_pretty (ts : List Tok) (h : goodToks ts) :
    ∀ i w col f, ts.length < f → tokenizeGo f (prettyGo i w col ts) = some ts := by
  induction ts with
  | nil =>
    intro i w col f hf
    obtain ⟨f2, rfl⟩ : ∃ f2, f = f2 + 1 := ⟨f - 1, by omega⟩
    rfl
  | cons t ts ih =>
    intro i w col f hf
    obtain ⟨f2, rfl⟩ : ∃ f2, f = f2 + 1 := ⟨f - 1, by omega⟩
    have hgood2 : goodToks ts := ⟨fun u hu => h.1 u (by simp [hu]), noII_tail h.2⟩
    have hstart : ∀ col2, isIdentTok t = true →
        headNotIdent (prettyGo i w col2 ts) := by
      intro col2 hid
      apply prettyGo_headNotIdent
      intro t2 ht2
      cases ts with
      | nil => cases ht2
      | cons b ts2 =>
        cases ht2
        exact h.2.1 hid
    have hlen : ts.length < f2 := by simpa using hf
    simp only [prettyGo]
    split
    · have hws : ∀ c ∈ '\n' :: spacesN i, isWSChar c = true := by
        intro c hc
        rcases List.mem_cons.mp hc with rfl | hc2
        · decide
        · exact spacesN_ws i c hc2
      have hstep := tokenizeGo_step ('\n' :: spacesN i) hws t
        (prettyGo i w (i + (renderTok t).length) ts) f2 (h.1 t (by simp))
        (hstart _)
      rw [show ('\n' :: (spacesN i ++ (renderTok t ++
          prettyGo i w (i + (renderTok t).length) ts))) =
        ('\n' :: spacesN i) ++ (renderTok t ++
          prettyGo i w (i + (renderTok t).length) ts) from by simp]
      rw [hstep, ih hgood2 i w _ f2 hlen]
      rfl
    · have hstep := tokenizeGo_step [] (by simp) t
        (prettyGo i w (col + (renderTok t).length) ts) f2 (h.1 t (by simp))
        (hstart _)
      simp only [List.nil_append] at hstep
      rw [hstep, ih hgood2 i w _ f2 hlen]
      rfl

/-- A non-identifier token is well-formed. -/
theorem goodTok_nonid {t : Tok} (h : isIdentTok t = false) : goodTok t := by
  cases t with
  | ident s => simp [isIdentTok] at h
  | _ => trivial

/-- Identifier tokens built from validated names are well-formed. -/
theorem goodTok_kw (s : List Char) (h1 : s ≠ [])
    (h2 : ∀ c ∈ s, identChar c = true) : goodTok (Tok.ident s) := ⟨h1, h2⟩

/-- Field-name tokens are well-formed for every name. -/
theorem goodTok_nameTok (s : List Char) : goodTok (nameTok s) := by
  unfold nameTok
  split
  · rename_i hs
    simp only [isSafeName, Bool.and_eq_true, Bool.not_eq_true',
      List.all_eq_true] at hs
    refine ⟨fun he => ?_, fun c hc => hs.2 c hc⟩
    rw [he] at hs
    exact absurd hs.1 (by decide)
  · trivial

/-- Head condition for a stream beginning with a non-identifier token. -/
theorem headOK_cons {t : Tok} (l : List Tok) (h : isIdentTok t = false) :
    ∀ b ∈ (t :: l).head?, isIdentTok b = false := by
  intro b hb
  simp only [List.head?_cons, Option.mem_def, Option.some.injEq] at hb
  subst hb
  exact h

/-- Head condition for the empty stream. -/
theorem headOK_nil : ∀ b ∈ ([] : List Tok).head?, isIdentTok b = false := by
  simp

/-- Adjacency-freedom is preserved by consing a non-identifier token. -/
theorem noII_cons_nonid {a : Tok} {l : List Tok} (ha : isIdentTok a = false)
    (hl : noII l) : noII (a :: l) := by
  cases l with
  | nil => trivial
  | cons b l2 => exact ⟨fun hid => absurd hid (by simp [ha]), hl⟩

/-- Adjacency-freedom is preserved by consing before a non-identifier head. -/
theorem noII_cons_headOK {a : Tok} {l : List Tok}
    (hh : ∀ b ∈ l.head?, isIdentTok b = false) (hl : noII l) : noII (a :: l) := by
  cases l with
  | nil => trivial
  | cons b l2 => exact ⟨fun _ => hh b rfl, hl⟩

/-- Adjacency-freedom is preserved by appending across a non-identifier
boundary. -/
theorem noII_append {xs ys : List Tok} (hx : noII xs) (hy : noII ys)
    (hh : ∀ b ∈ ys.head?, isIdentTok b = false) : noII (xs ++ ys) := by
  induction xs with
  | nil => simpa using hy
  | cons a xs2 ih =>
    cases xs2 with
    | nil => simpa using noII_cons_headOK hh hy
    | cons b xs3 => exact ⟨hx.1, ih hx.2⟩

/-- Well-formedness of token streams is preserved by append across a
non-identifier boundary. -/
theorem goodToks_append {xs ys : List Tok} (hx : goodToks xs) (hy : goodToks ys)
    (hh : ∀ b ∈ ys.head?, isIdentTok b = false) : goodToks (xs ++ ys) :=
  ⟨fun t ht => (List.mem_append.mp ht).elim (hx.1 t) (hy.1 t),
   noII_append hx.2 hy.2 hh⟩

/-- Well-formedness is preserved by consing any well-formed token before a
non-identifier head. -/
theorem goodToks_cons {t : Tok} {l : List Tok} (ht : goodTok t)
    (hh : ∀ b ∈ l.head?, isIdentTok b = false) (hl : goodToks l) :
    goodToks (t :: l) :=
  ⟨fun u hu => (List.mem_cons.mp hu).elim (fun e => e ▸ ht) (hl.1 u),
   noII_cons_headOK hh hl.2⟩

/-- Well-formedness is preserved by consing a non-identifier token. -/
theorem goodToks_cons_punct {t : Tok} {l : List Tok} (hid : isIdentTok t = false)
    (hl : goodToks l) : goodToks (t :: l) :=
  ⟨fun u hu => (List.mem_cons.mp hu).elim (fun e => e ▸ goodTok_nonid hid) (hl.1 u),
   noII_cons_nonid hid hl.2⟩

/-- The empty stream is well-formed. -/
theorem goodToks_nil : goodToks [] :=
  ⟨fun t ht => absurd ht (List.not_mem_nil t), trivial⟩

mutual

/-- The canonical token stream of every type is well-formed. -/
theorem goodToks_ty : (T : HType) → goodToks T.toks
  | .tint32 => goodToks_cons (goodTok_kw _ (by decide) (by decide)) headOK_nil goodToks_nil
  | .tint64 => goodToks_cons (goodTok_kw _ (by decide) (by decide)) headOK_nil goodToks_nil
  | .tfloat32 => goodToks_cons (goodTok_kw _ (by decide) (by decide)) headOK_nil goodToks_nil
  | .tfloat64 => goodToks_cons (goodTok_kw _ (by decide) (by decide)) headOK_nil goodToks_nil
  | .tstr => goodToks_cons (goodTok_kw _ (by decide) (by decide)) headOK_nil goodToks_nil
  | .tbool => goodToks_cons (goodTok_kw _ (by decide) (by decide)) headOK_nil goodToks_nil
  | .tcall => goodToks_cons (goodTok_kw _ (by decide) (by decide)) headOK_nil goodToks_nil
  | .tlocus rg =>
    goodToks_cons (goodTok_kw _ (by decide) (by decide)) (headOK_cons _ rfl)
      (goodToks_cons_punct rfl
        (goodToks_cons (by cases rg <;> exact goodTok_kw _ (by decide) (by decide))
          (headOK_cons _ rfl) (goodToks_cons_punct rfl goodToks_nil)))
  | .tinterval e =>
    goodToks_cons (goodTok_kw _ (by decide) (by decide)) (headOK_cons _ rfl)
      (goodToks_cons_punct rfl
        (goodToks_append (goodToks_ty e) (goodToks_cons_punct rfl goodToks_nil)
          (headOK_cons _ rfl)))
  | .tarray e =>
    goodToks_cons (goodTok_kw _ (by decide) (by decide)) (headOK_cons _ rfl)
      (goodToks_cons_punct rfl
        (goodToks_append (goodToks_ty e) (goodToks_cons_punct rfl goodToks_nil)
          (headOK_cons _ rfl)))
  | .tset e =>
    goodToks_cons (goodTok_kw _ (by decide) (by decide)) (headOK_cons _ rfl)
      (goodToks_cons_punct rfl
        (goodToks_append (goodToks_ty e) (goodToks_cons_punct rfl goodToks_nil)
          (headOK_cons _ rfl)))
  | .tdict k v =>
    goodToks_cons (goodTok_kw _ (by decide) (by decide)) (headOK_cons _ rfl)
      (goodToks_cons_punct rfl
        (goodToks_append (goodToks_ty k)
          (goodToks_cons_punct rfl
            (goodToks_append (goodToks_ty v)
              (goodToks_cons_punct rfl goodToks_nil) (headOK_cons _ rfl)))
          (headOK_cons _ rfl)))
  | .tstruct fs =>
    goodToks_cons (goodTok_kw _ (by decide) (by decide)) (headOK_cons _ rfl)
      (goodToks_cons_punct rfl
        (goodToks_append (goodToks_fs fs) (goodToks_cons_punct rfl goodToks_nil)
          (headOK_cons _ rfl)))
  | .ttuple ts =>
    goodToks_cons (goodTok_kw _ (by decide) (by decide)) (headOK_cons _ rfl)
      (goodToks_cons_punct rfl
        (goodToks_append (goodToks_tys ts) (goodToks_cons_punct rfl goodToks_nil)
          (headOK_cons _ rfl)))

/-- The token stream of every struct field list is well-formed. -/
theorem goodToks_fs : (fs : HFields) → goodToks fs.toks
  | .nil => goodToks_nil
  | .cons nm t .nil =>
    goodToks_cons (goodTok_nameTok nm) (headOK_cons _ rfl)
      (goodToks_cons_punct rfl (goodToks_ty t))
  | .cons nm t (.cons nm2 t2 fs2) =>
    goodToks_cons (goodTok_nameTok nm) (headOK_cons _ rfl)
      (goodToks_cons_punct rfl
        (goodToks_append (goodToks_ty t)
          (goodToks_cons_punct rfl (goodToks_fs (.cons nm2 t2 fs2)))
          (headOK_cons _ rfl)))

/-- The token stream of every tuple element list is well-formed. -/
theorem goodToks_tys : (ts : HTypes) → goodToks ts.toks
  | .nil => goodToks_nil
  | .cons t .nil => goodToks_ty t
  | .cons t (.cons t2 ts2) =>
    goodToks_append (goodToks_ty t)
      (goodToks_cons_punct rfl (goodToks_tys (.cons t2 ts2)))
      (headOK_cons _ rfl)

end

/-- Keyword table entry for int32. -/
theorem kwOf_int32 : kwOf "int32".toList = some Kw.kint32 := rfl

/-- Keyword table entry for int64. -/
theorem kwOf_int64 : kwOf "int64".toList = some Kw.kint64 := rfl

/-- Keyword table entry for float32. -/
theorem kwOf_float32 : kwOf "float32".toList = some Kw.kfloat32 := rfl

/-- Keyword table entry for float64. -/
theorem kwOf_float64 : kwOf "float64".toList = some Kw.kfloat64 := rfl

/-- Keyword table entry for str. -/
theorem kwOf_str : kwOf "str".toList = some Kw.kstr := rfl

/-- Keyword table entry for bool. -/
theorem kwOf_bool : kwOf "bool".toList = some Kw.kbool := rfl

/-- Keyword table entry for call. -/
theorem kwOf_call : kwOf "call".toList = some Kw.kcall := rfl

/-- Keyword table entry for locus. -/
theorem kwOf_locus : kwOf "locus".toList = some Kw.klocus := rfl

/-- Keyword table entry for interval. -/
theorem kwOf_interval : kwOf "interval".toList = some Kw.kinterval := rfl

/-- Keyword table entry for array. -/
theorem kwOf_array : kwOf "array".toList = some Kw.karray := rfl

/-- Keyword table entry for set. -/
theorem kwOf_set : kwOf "set".toList = some Kw.kset := rfl

/-- Keyword table entry for dict. -/
theorem kwOf_dict : kwOf "dict".toList = some Kw.kdict := rfl

/-- Keyword table entry for struct. -/
theorem kwOf_struct : kwOf "struct".toList = some Kw.kstruct := rfl

/-- Keyword table entry for tuple. -/
theorem kwOf_tuple : kwOf "tuple".toList = some Kw.ktuple := rfl

/-- Field-name tokens parse back to the name, bare or quoted. -/
theorem parseName_nameTok (nm : List Char) (l : List Tok) :
    parseName (nameTok nm :: l) = some (nm, l) := by
  unfold nameTok
  split <;> rfl

/-- A field list that does not start with the closing brace dispatches to the
nonempty-field parse. -/
theorem parseFields_dispatch {f : Nat} {ts : List Tok}
    (h : ts.head? ≠ some Tok.rbrace) : parseFields (f + 1) ts = parseFields1 f ts := by
  cases ts with
  | nil => rfl
  | cons t ts2 => cases t <;> first | rfl | exact absurd rfl h

/-- A tuple body that does not start with the closing parenthesis dispatches
to the nonempty-element parse. -/
theorem parseTys_dispatch {f : Nat} {ts : List Tok}
    (h : ts.head? ≠ some Tok.rparen) : parseTys (f + 1) ts = parseTys1 f ts := by
  cases ts with
  | nil => rfl
  | cons t ts2 => cases t <;> first | rfl | exact absurd rfl h

/-- Every type's token stream begins with an identifier token. -/
theorem toks_ty_head (T : HType) : ∃ s X, T.toks = Tok.ident s :: X := by
  cases T <;> exact ⟨_, _, rfl⟩

/-- A nonempty field list's token stream begins with its first field name. -/
theorem toks_fs_head (nm : List Char) (t : HType) (fs : HFields) :
    ∃ X, (HFields.cons nm t fs).toks = nameTok nm :: Tok.colon :: X := by
  cases fs <;> exact ⟨_, rfl⟩

/-- A nonempty element list's token stream begins with an identifier token. -/
theorem toks_tys_head (t : HType) (ts : HTypes) :
    ∃ s X, (HTypes.cons t ts).toks = Tok.ident s :: X := by
  obtain ⟨s, X, hX⟩ := toks_ty_head t
  cases ts with
  | nil => exact ⟨s, X, hX⟩
  | cons t2 ts2 =>
    refine ⟨s, X ++ Tok.comma :: (HTypes.cons t2 ts2).toks, ?_⟩
    show t.toks ++ Tok.comma :: (HTypes.cons t2 ts2).toks = _
    rw [hX]
    rfl

/-- Field-name tokens are never the closing brace. -/
theorem nameTok_ne_rbrace (nm : List Char) : nameTok nm ≠ Tok.rbrace := by
  unfold nameTok
  split <;> simp

mutual

/-- The type parser inverts the canonical token stream of every type, at any
sufficient fuel, leaving the rest of the stream untouched. -/
theorem parseTy_toks : (T : HType) → ∀ (f : Nat) (r : List Tok), T.need ≤ f →
    parseTy f (T.toks ++ r) = some (T, r)
  | .tint32 => by
    intro f r h
    obtain ⟨f2, rfl⟩ : ∃ f2, f = f2 + 1 := ⟨f - 1, by simp [HType.need] at h; omega⟩
    rfl
  | .tint64 => by
    intro f r h
    obtain ⟨f2, rfl⟩ : ∃ f2, f = f2 + 1 := ⟨f - 1, by simp [HType.need] at h; omega⟩
    rfl
  | .tfloat32 => by
    intro f r h
    obtain ⟨f2, rfl⟩ : ∃ f2, f = f2 + 1 := ⟨f - 1, by simp [HType.need] at h; omega⟩
    rfl
  | .tfloat64 => by
    intro f r h
    obtain ⟨f2, rfl⟩ : ∃ f2, f = f2 + 1 := ⟨f - 1, by simp [HType.need] at h; omega⟩
    rfl
  | .tstr => by
    intro f r h
    obtain ⟨f2, rfl⟩ : ∃ f2, f = f2 + 1 := ⟨f - 1, by simp [HType.need] at h; omega⟩
    rfl
  | .tbool => by
    intro f r h
    obtain ⟨f2, rfl⟩ : ∃ f2, f = f2 + 1 := ⟨f - 1, by simp [HType.need] at h; omega⟩
    rfl
  | .tcall => by
    intro f r h
    obtain ⟨f2, rfl⟩ : ∃ f2, f = f2 + 1 := ⟨f - 1, by simp [HType.need] at h; omega⟩
    rfl
  | .tlocus rg => by
    intro f r h
    obtain ⟨f2, rfl⟩ : ∃ f2, f = f2 + 1 := ⟨f - 1, by simp [HType.need] at h; omega⟩
    cases rg <;> rfl
  | .tinterval e => by
    intro f r h
    simp only [HType.need] at h
    obtain ⟨f2, rfl⟩ : ∃ f2, f = f2 + 1 := ⟨f - 1, by omega⟩
    have he := parseTy_toks e f2 (Tok.gt :: r) (by omega)
    rw [show (HType.tinterval e).toks ++ r =
      Tok.ident "interval".toList :: Tok.lt :: (e.toks ++ (Tok.gt :: r)) from by
        simp [HType.toks]]
    simp only [parseTy, kwOf_interval, he]
  | .tarray e => by
    intro f r h
    simp only [HType.need] at h
    obtain ⟨f2, rfl⟩ : ∃ f2, f = f2 + 1 := ⟨f - 1, by omega⟩
    have he := parseTy_toks e f2 (Tok.gt :: r) (by omega)
    rw [show (HType.tarray e).toks ++ r =
      Tok.ident "array".toList :: Tok.lt :: (e.toks ++ (Tok.gt :: r)) from by
        simp [HType.toks]]
    simp only [parseTy, kwOf_array, he]
  | .tset e => by
    intro f r h
    simp only [HType.need] at h
    obtain ⟨f2, rfl⟩ : ∃ f2, f = f2 + 1 := ⟨f - 1, by omega⟩
    have he := parseTy_toks e f2 (Tok.gt :: r) (by omega)
    rw [show (HType.tset e).toks ++ r =
      Tok.ident "set".toList :: Tok.lt :: (e.toks ++ (Tok.gt :: r)) from by
        simp [HType.toks]]
    simp only [parseTy, kwOf_set, he]
  | .tdict k v => by
    intro f r h
    simp only [HType.need] at h
    obtain ⟨f2, rfl⟩ : ∃ f2, f = f2 + 1 := ⟨f - 1, by omega⟩
    have hk := parseTy_toks k f2 (Tok.comma :: (v.toks ++ (Tok.gt :: r))) (by omega)
    have hv := parseTy_toks v f2 (Tok.gt :: r) (by omega)
    rw [show (HType.tdict k v).toks ++ r = Tok.ident "dict".toList :: Tok.lt ::
      (k.toks ++ (Tok.comma :: (v.toks ++ (Tok.gt :: r)))) from by
        simp [HType.toks]]
    simp only [parseTy, kwOf_dict, hk, hv]
  | .tstruct fs => by
    intro f r h
    simp only [HType.need] at h
    obtain ⟨f2, rfl⟩ : ∃ f2, f = f2 + 1 := ⟨f - 1, by omega⟩
    rw [show (HType.tstruct fs).toks ++ r = Tok.ident "struct".toList ::
      Tok.lbrace :: (fs.toks ++ (Tok.rbrace :: r)) from by simp [HType.toks]]
    cases fs with
    | nil =>
      obtain ⟨f3, rfl⟩ : ∃ f3, f2 = f3 + 1 :=
        ⟨f2 - 1, by simp [HFields.need] at h; omega⟩
      simp only [HFields.toks, List.nil_append, parseTy, kwOf_struct, parseFields]
    | cons nm t fs2 =>
      simp only [HFields.need] at h
      obtain ⟨f3, rfl⟩ : ∃ f3, f2 = f3 + 1 := ⟨f2 - 1, by omega⟩
      have hfs := parseFields1_toks nm t fs2 f3 r (by simp [HFields.need]; omega)
      obtain ⟨X, hX⟩ := toks_fs_head nm t fs2
      have hdis : parseFields (f3 + 1)
          ((HFields.cons nm t fs2).toks ++ (Tok.rbrace :: r)) =
          parseFields1 f3 ((HFields.cons nm t fs2).toks ++ (Tok.rbrace :: r)) := by
        apply parseFields_dispatch
        rw [hX]
        simp only [List.cons_append, List.head?_cons, ne_eq, Option.some.injEq]
        exact nameTok_ne_rbrace nm
      simp only [parseTy, kwOf_struct]
      rw [hdis, hfs]
  | .ttuple ts => by
    intro f r h
    simp only [HType.need] at h
    obtain ⟨f2, rfl⟩ : ∃ f2, f = f2 + 1 := ⟨f - 1, by omega⟩
    rw [show (HType.ttuple ts).toks ++ r = Tok.ident "tuple".toList ::
      Tok.lparen :: (ts.toks ++ (Tok.rparen :: r)) from by simp [HType.toks]]
    cases ts with
    | nil =>
      obtain ⟨f3, rfl⟩ : ∃ f3, f2 = f3 + 1 :=
        ⟨f2 - 1, by simp [HTypes.need] at h; omega⟩
      simp only [HTypes.toks, List.nil_append, parseTy, kwOf_tuple, parseTys]
    | cons t ts2 =>
      simp only [HTypes.need] at h
      obtain ⟨f3, rfl⟩ : ∃ f3, f2 = f3 + 1 := ⟨f2 - 1, by omega⟩
      have hts := parseTys1_toks t ts2 f3 r (by simp [HTypes.need]; omega)
      obtain ⟨s, X, hX⟩ := toks_tys_head t ts2
      have hdis : parseTys (f3 + 1)
          ((HTypes.cons t ts2).toks ++ (Tok.rparen :: r)) =
          parseTys1 f3 ((HTypes.cons t ts2).toks ++ (Tok.rparen :: r)) := by
        apply parseTys_dispatch
        rw [hX]
        simp
      simp only [parseTy, kwOf_tuple]
      rw [hdis, hts]
termination_by T => sizeOf T
decreasing_by all_goals (simp_wf; try omega)

/-- The nonempty-field parser inverts the token stream of every nonempty
field list followed by the closing brace. -/
theorem parseFields1_toks : (nm : List Char) → (t : HType) → (fs : HFields) →
    ∀ (f : Nat) (r : List Tok), (HFields.cons nm t fs).need ≤ f →
    parseFields1 f ((HFields.cons nm t fs).toks ++ (Tok.rbrace :: r)) =
      some (.cons nm t fs, r)
  | nm, t, .nil => by
    intro f r h
    simp only [HFields.need] at h
    obtain ⟨f2, rfl⟩ : ∃ f2, f = f2 + 1 := ⟨f - 1, by omega⟩
    have ht := parseTy_toks t f2 (Tok.rbrace :: r) (by omega)
    rw [show (HFields.cons nm t .nil).toks ++ (Tok.rbrace :: r) =
      nameTok nm :: Tok.colon :: (t.toks ++ (Tok.rbrace :: r)) from by
        simp [HFields.toks]]
    simp only [parseFields1, parseName_nameTok, ht]
  | nm, t, .cons nm2 t2 fs2 => by
    intro f r h
    simp only [HFields.need] at h
    obtain ⟨f2, rfl⟩ : ∃ f2, f = f2 + 1 := ⟨f - 1, by omega⟩
    have ht := parseTy_toks t f2
      (Tok.comma :: ((HFields.cons nm2 t2 fs2).toks ++ (Tok.rbrace :: r)))
      (by omega)
    have hrec := parseFields1_toks nm2 t2 fs2 f2 r
      (by simp only [HFields.need]; omega)
    rw [show (HFields.cons nm t (.cons nm2 t2 fs2)).toks ++ (Tok.rbrace :: r) =
      nameTok nm :: Tok.colon :: (t.toks ++ (Tok.comma ::
        ((HFields.cons nm2 t2 fs2).toks ++ (Tok.rbrace :: r)))) from by
          simp [HFields.toks]]
    simp only [parseFields1, parseName_nameTok, ht, hrec]
termination_by _nm t fs => sizeOf t + sizeOf fs + 1
decreasing_by all_goals (simp_wf; try omega)

/-- The nonempty-element parser inverts the token stream of every nonempty
tuple element list followed by the closing parenthesis. -/
theorem parseTys1_toks : (t : HType) → (ts : HTypes) →
    ∀ (f : Nat) (r : List Tok), (HTypes.cons t ts).need ≤ f →
    parseTys1 f ((HTypes.cons t ts).toks ++ (Tok.rparen :: r)) =
      some (.cons t ts, r)
  | t, .nil => by
    intro f r h
    simp only [HTypes.need] at h
    obtain ⟨f2, rfl⟩ : ∃ f2, f = f2 + 1 := ⟨f - 1, by omega⟩
    have ht := parseTy_toks t f2 (Tok.rparen :: r) (by omega)
    rw [show (HTypes.cons t .nil).toks ++ (Tok.rparen :: r) =
      t.toks ++ (Tok.rparen :: r) from by simp [HTypes.toks]]
    simp only [parseTys1, ht]
  | t, .cons t2 ts2 => by
    intro f r h
    simp only [HTypes.need] at h
    obtain ⟨f2, rfl⟩ : ∃ f2, f = f2 + 1 := ⟨f - 1, by omega⟩
    have ht := parseTy_toks t f2
      (Tok.comma :: ((HTypes.cons t2 ts2).toks ++ (Tok.rparen :: r))) (by omega)
    have hrec := parseTys1_toks t2 ts2 f2 r
      (by simp only [HTypes.need]; omega)
    rw [show (HTypes.cons t (.cons t2 ts2)).toks ++ (Tok.rparen :: r) =
      t.toks ++ (Tok.comma :: ((HTypes.cons t2 ts2).toks ++ (Tok.rparen :: r)))
      from by simp [HTypes.toks]]
    simp only [parseTys1, ht, hrec]
termination_by t ts => sizeOf t + sizeOf ts + 1
decreasing_by all_goals (simp_wf; try omega)

end

mutual

/-- The parser fuel requirement of a type is bounded by its token count. -/
theorem need_le_ty : (T : HType) → T.need ≤ 2 * T.toks.length
  | .tint32 => by decide
  | .tint64 => by decide
  | .tfloat32 => by decide
  | .tfloat64 => by decide
  | .tstr => by decide
  | .tbool => by decide
  | .tcall => by decide
  | .tlocus rg => by cases rg <;> decide
  | .tinterval e => by
    have := need_le_ty e
    simp only [HType.need, HType.toks, List.length_cons, List.length_append,
      List.length_singleton]
    omega
  | .tarray e => by
    have := need_le_ty e
    simp only [HType.need, HType.toks, List.length_cons, List.length_append,
      List.length_singleton]
    omega
  | .tset e => by
    have := need_le_ty e
    simp only [HType.need, HType.toks, List.length_cons, List.length_append,
      List.length_singleton]
    omega
  | .tdict k v => by
    have h1 := need_le_ty k
    have h2 := need_le_ty v
    simp only [HType.need, HType.toks, List.length_cons, List.length_append,
      List.length_singleton]
    omega
  | .tstruct fs => by
    have := need_le_fs fs
    simp only [HType.need, HType.toks, List.length_cons, List.length_append,
      List.length_singleton]
    omega
  | .ttuple ts => by
    have := need_le_tys ts
    simp only [HType.need, HType.toks, List.length_cons, List.length_append,
      List.length_singleton]
    omega

/-- The parser fuel requirement of a field list is bounded by its token
count. -/
theorem need_le_fs : (fs : HFields) → fs.need ≤ 2 * fs.toks.length + 3
  | .nil => by decide
  | .cons _nm t .nil => by
    have := need_le_ty t
    simp only [HFields.need, HFields.toks, List.length_cons]
    omega
  | .cons _nm t (.cons nm2 t2 fs2) => by
    have h1 := need_le_ty t
    have h2 := need_le_fs (.cons nm2 t2 fs2)
    simp only [HFields.need, HFields.toks, List.length_cons, List.length_append] at h2 ⊢
    omega

/-- The parser fuel requirement of an element list is bounded by its token
count. -/
theorem need_le_tys : (ts : HTypes) → ts.need ≤ 2 * ts.toks.length + 3
  | .nil => by decide
  | .cons t .nil => by
    have := need_le_ty t
    simp only [HTypes.need, HTypes.toks, HFields.need]
    omega
  | .cons t (.cons t2 ts2) => by
    have h1 := need_le_ty t
    have h2 := need_le_tys (.cons t2 ts2)
    simp only [HTypes.need, HTypes.toks, List.length_cons, List.length_append] at h2 ⊢
    omega

end

/-- A well-formed stream never has more tokens than flat characters. -/
theorem length_le_flatRender (ts : List Tok) (h : ∀ t ∈ ts, goodTok t) :
    ts.length ≤ (flatRender ts).length := by
  induction ts with
  | nil => simp [flatRender]
  | cons t ts ih =>
    have h1 := renderTok_length_pos (h t (by simp))
    have h2 := ih (fun u hu => h u (by simp [hu]))
    simp only [flatRender, List.length_append, List.length_cons]
    omega

/-- A well-formed stream never has more tokens than pretty characters. -/
theorem length_le_prettyGo (i w : Nat) (ts : List Tok) (h : ∀ t ∈ ts, goodTok t) :
    ∀ col, ts.length ≤ (prettyGo i w col ts).length := by
  induction ts with
  | nil => intro col; simp [prettyGo]
  | cons t ts ih =>
    intro col
    have h1 := renderTok_length_pos (h t (by simp))
    have h2 := ih (fun u hu => h u (by simp [hu]))
    simp only [prettyGo]
    split
    · have := h2 (i + (renderTok t).length)
      simp only [List.length_cons, List.length_append]
      omega
    · have := h2 (col + (renderTok t).length)
      simp only [List.length_append, List.length_cons]
      omega

/-- Claim C1: for every constructible type (scalars, locus, interval, call,
empty struct, empty tuple, nested containers, and structs whose field names
contain quotes, backticks, unicode or whitespace), parsing the canonical
string form reproduces a structurally equal type, and parsing the pretty
multi-line form at any indent and width reproduces a structurally equal type:
`dtype (strT T) = some T` and `dtype (prettyT T indent width) = some T`. -/
theorem C1_parse_print_roundtrip (T : HType) :
    dtype (strT T) = some T ∧
    ∀ indent width : Nat, dtype (prettyT T indent width) = some T := by
  have hgood := goodToks_ty T
  have hparse : ∀ f : Nat, T.need ≤ f → parseTy f T.toks = some (T, []) := by
    intro f hf
    have := parseTy_toks T f [] hf
    simpa using this
  constructor
  · show dtype ⟨flatRender T.toks⟩ = some T
    have htok : tokenize (flatRender T.toks) = some T.toks := by
      unfold tokenize
      exact tokenize_flat T.toks hgood _
        (by have := length_le_flatRender T.toks hgood.1; omega)
    unfold dtype
    rw [show (String.mk (flatRender T.toks)).toList = flatRender T.toks from rfl]
    simp only [htok, hparse (2 * T.toks.length + 1)
      (by have := need_le_ty T; omega)]
  · intro indent width
    show dtype ⟨prettyGo indent width 0 T.toks⟩ = some T
    have htok : tokenize (prettyGo indent width 0 T.toks) = some T.toks := by
      unfold tokenize
      exact tokenize_pretty T.toks hgood indent width 0 _
        (by have := length_le_prettyGo indent width T.toks hgood.1 0; omega)
    unfold dtype
    rw [show (String.mk (prettyGo indent width 0 T.toks)).toList =
      prettyGo indent width 0 T.toks from rfl]
    simp only [htok, hparse (2 * T.toks.length + 1)
      (by have := need_le_ty T; omega)]

/-- Witness for C8 at the test sequence. -/
theorem C8_argmin_argmax_witness :
    argmin true [] = none ∧
    (∃ i, argmin false [2, 1, 1, 4, 4, 3] = some i ∧
      ∃ hi : i < ([2, 1, 1, 4, 4, 3] : List Int).length,
        ∀ j : Fin ([2, 1, 1, 4, 4, 3] : List Int).length,
          ([2, 1, 1, 4, 4, 3] : List Int).get ⟨i, hi⟩ ≤
            ([2, 1, 1, 4, 4, 3] : List Int).get j) :=
  ⟨(C8_argmin_argmax true [2, 1, 1, 4, 4, 3] (by decide)).1,
    (C8_argmin_argmax true [2, 1, 1, 4, 4, 3] (by decide)).2.2.1⟩

end Hail
